import Mathlib

set_option maxHeartbeats 1600000

/-!  Verification development for the pymaid morphology module
(`pymaid/morpho.py`, with `pymaid/graph.py` and `pymaid/utils.py` as context).

A neuron is kept as two tables, mirroring the pandas data frames of the
source: a node table (`treenode_id`, `parent_id`, coordinates, `confidence`)
and a connector table (`connector_id`, `treenode_id`, `relation`, with
relation 0 = presynaptic and 1 = postsynaptic, as in
`connectors[connectors.relation==0]` of the source).

Helper functions of the package that live in modules not part of this
tree (`graph_utils.generate_list_of_childs`, `graph_utils.classify_nodes`,
`graph_utils.distal_to`, `CatmaidNeuron.reroot`, `_clear_temp_attr`) are
modelled from the specification; each such definition carries a doc
comment saying so.  Everything else is translated from `morpho.py`.

Python floats appearing in `arbor_confidence` are modelled as rationals;
`math.log` in `segregation_index` is modelled with `Real.log`.  -/

/-- A row of the neuron's node table: id, parent link, 3D position and the
edge confidence (0..5), as fetched into `neuron.nodes` in the source. -/
structure TN where
  treenode_id : Nat
  parent_id : Option Nat
  x : Int := 0
  y : Int := 0
  z : Int := 0
  confidence : Nat := 5
  deriving DecidableEq

/-- A row of the connector table; `relation` is 0 for presynaptic and 1 for
postsynaptic, matching `connectors.relation == 0 / 1` in the source. -/
structure Connector where
  connector_id : Nat
  treenode_id : Nat
  relation : Nat
  deriving DecidableEq

/-- Modelled from the spec: `graph_utils.generate_list_of_childs` is not in
this tree; §4.1 defines `children_of(node_id)` as the set of nodes whose
parent link points at the node.  Table order is kept. -/
def childsOf (ns : List TN) (t : Nat) : List Nat :=
  (ns.filter (fun m => m.parent_id = some t)).map (·.treenode_id)

/-- First row of the table carrying the given treenode id (unique when the
id column has no duplicates). -/
def rowOf (ns : List TN) (t : Nat) : Option TN :=
  ns.find? (fun m => m.treenode_id = t)

/-- Parent link of a node id, read off the table (`df.nodes.loc[t, 'parent_id']`). -/
def parentOf (ns : List TN) (t : Nat) : Option Nat :=
  match rowOf ns t with
  | some m => m.parent_id
  | none => none

/-- Node classes of §4.1: root / slab / branch / end. -/
inductive NType
  | root
  | slab
  | branch
  | endp
  deriving DecidableEq

/-- Modelled from the spec: `graph_utils.classify_nodes` is not in this
tree.  §4.1: root = no parent; end = zero children; branch = ≥2 children;
slab = exactly 1 child and has a parent.  The root label takes precedence
over the others, as demanded by §8 ("classify() assigns exactly one root
per connected component") and by §4.3, which describes spines running all
the way up to the root. -/
def classify_nodes (ns : List TN) (n : TN) : NType :=
  if n.parent_id = none then .root
  else if childsOf ns n.treenode_id = [] then .endp
  else if 2 ≤ (childsOf ns n.treenode_id).length then .branch
  else .slab

/-- Ids of the nodes classified `end` (`df.nodes[df.nodes.type == 'end']`). -/
def endIds (ns : List TN) : List Nat :=
  (ns.filter (fun n => classify_nodes ns n = .endp)).map (·.treenode_id)

/-- Ids of the nodes classified `branch` (`df.nodes[df.nodes.type == 'branch']`). -/
def branchIds (ns : List TN) : List Nat :=
  (ns.filter (fun n => classify_nodes ns n = .branch)).map (·.treenode_id)

/-- Python's `max` over a list of naturals (used on nonempty lists only). -/
def maxOf (l : List Nat) : Nat := l.foldr max 0

/-- The per-branch index computation of `strahler_index`
(morpho.py lines 348-359): no child indices gives 1, a single child index
is continued, a tie at the maximum or the greedy method bumps the maximum
by one, otherwise the maximum is continued.  `greedy = true` stands for
`method == 'greedy'`. -/
def branchIndexOf (previous : List Nat) (greedy : Bool) : Nat :=
  match previous with
  | [] => 1
  | [i] => i
  | _ =>
    if 2 ≤ previous.count (maxOf previous) ∨ greedy = true then maxOf previous + 1
    else maxOf previous

/-- The spine walk of `strahler_index` (morpho.py lines 364-385): starting
at a frontier node, follow parent links while the parent exists and is not
a branch node, collecting the visited nodes.  The second component is the
branch node the walk stopped under, if any (`parent_node` at loop exit).
Fuel bounds the walk; `ns.length` steps suffice on an acyclic table. -/
def spineWalk (ns : List TN) (br : List Nat) : Nat → Nat → List Nat × Option Nat
  | 0, t => ([t], none)
  | fuel+1, t =>
    match parentOf ns t with
    | none => ([t], none)
    | some p =>
      if p ∈ br then ([t], some p)
      else
        let r := spineWalk ns br fuel p
        (t :: r.1, r.2)

/-- State of the Strahler engine: the `strahler_index` dict and the
`nodes_processed` list of the source. -/
structure SEng where
  idx : Nat → Option Nat
  processed : List Nat

/-- One iteration of the inner `for en in starting_points` loop of
`strahler_index`: compute the branch index from the already-computed child
indices, walk down the spine, record the spine nodes as processed and
assign them the index, and emit the stopping branch node as a new starting
point when all of its children are processed. -/
def processFrontierNode (greedy : Bool) (ns : List TN) (br : List Nat)
    (st : SEng) (en : Nat) : SEng × List Nat :=
  let previous := (childsOf ns en).filterMap st.idx
  let bi := branchIndexOf previous greedy
  let sp := (spineWalk ns br ns.length en).1
  let stop := (spineWalk ns br ns.length en).2
  let processedNew := st.processed ++ sp
  let idxNew : Nat → Option Nat := fun m => if m ∈ sp then some bi else st.idx m
  let newPts : List Nat :=
    match stop with
    | some b => if (childsOf ns b).all (fun c => decide (c ∈ processedNew)) then [b] else []
    | none => []
  (⟨idxNew, processedNew⟩, newPts)

/-- One pass of the outer `while starting_points` loop: every current
starting point is processed in list order and the new starting points are
collected (the source removes all processed points and appends the new
ones, so the next frontier is exactly the collected list). -/
def strahlerPass (greedy : Bool) (ns : List TN) (br : List Nat) :
    List Nat → SEng → SEng × List Nat
  | [], st => (st, [])
  | en :: rest, st =>
    let r := processFrontierNode greedy ns br st en
    let r2 := strahlerPass greedy ns br rest r.1
    (r2.1, r.2 ++ r2.2)

/-- The outer `while starting_points` loop, fuelled. -/
def strahlerLoop (greedy : Bool) (ns : List TN) (br : List Nat) :
    Nat → List Nat → SEng → SEng
  | 0, _, st => st
  | _+1, [], st => st
  | fuel+1, frontier, st =>
    let r := strahlerPass greedy ns br frontier st
    strahlerLoop greedy ns br fuel r.2 r.1

/-- `strahler_index` of morpho.py: classify the nodes, start from the end
nodes and run the frontier loop.  `greedy = true` is `method='greedy'`,
`false` is the default `method='standard'`. -/
def strahler_index (ns : List TN) (greedy : Bool) : SEng :=
  strahlerLoop greedy ns (branchIds ns) (ns.length + 1) (endIds ns) ⟨fun _ => none, []⟩

/-- Strahler index finally attached to node `n` (the `strahler_index`
column written back at morpho.py line 409). -/
def engineIdx (ns : List TN) (greedy : Bool) (n : Nat) : Option Nat :=
  (strahler_index ns greedy).idx n

/-- Three-node tree: root 0 with leaf children 1 and 2. -/
def ex3 : List TN :=
  [⟨0, none, 0, 0, 0, 5⟩, ⟨1, some 0, 0, 0, 0, 5⟩, ⟨2, some 0, 0, 0, 0, 5⟩]

/-- Seven-node binary tree: root 0, children 1 and 2, grandchildren 3, 4
under 1 and 5, 6 under 2. -/
def ex7 : List TN :=
  [⟨0, none, 0, 0, 0, 5⟩, ⟨1, some 0, 0, 0, 0, 5⟩, ⟨2, some 0, 0, 0, 0, 5⟩,
   ⟨3, some 1, 0, 0, 0, 5⟩, ⟨4, some 1, 0, 0, 0, 5⟩,
   ⟨5, some 2, 0, 0, 0, 5⟩, ⟨6, some 2, 0, 0, 0, 5⟩]

/-! The pruner (`prune_by_strahler`, morpho.py lines 418-511), without the
`relocate_connectors` option.  The strahler_index column is represented as
a map `si` from treenode id to its (optional) index value; `isin` on a
pandas column treats a missing value (`None`) as not contained. -/

/-- Boolean test `neuron.nodes.strahler_index.isin(to_prune)` for one node
id: a missing index value is never contained. -/
def isinSI (si : Nat → Option Nat) (tp : List Nat) (t : Nat) : Bool :=
  match si t with
  | some v => tp.contains v
  | none => false

/-- Survival predicate of the pruning step (morpho.py line 481):
`~neuron.nodes.strahler_index.isin(to_prune)`. -/
def pruneKeep (si : Nat → Option Nat) (tp : List Nat) (n : TN) : Bool :=
  !(isinSI si tp n.treenode_id)

/-- Parent repair of morpho.py line 503: a node whose parent is not among
the remaining treenode ids becomes a new root (`parent_id = None`). -/
def pruneFix (remaining : List Nat) (n : TN) : TN :=
  if (match n.parent_id with
      | some p => remaining.contains p
      | none => false) then n
  else { n with parent_id := none }

/-- Core of `prune_by_strahler` (morpho.py lines 481-503, with
`relocate_connectors=False`): drop the nodes whose strahler index is in
`to_prune`, keep only connectors attached to surviving nodes, and null out
parent links that point at deleted nodes. -/
def pruneCore (ns : List TN) (cs : List Connector) (si : Nat → Option Nat)
    (tp : List Nat) : List TN × List Connector :=
  let nodes1 := ns.filter (pruneKeep si tp)
  let remaining := nodes1.map (·.treenode_id)
  (nodes1.map (pruneFix remaining), cs.filter (fun c => remaining.contains c.treenode_id))

/-- `prune_by_strahler` with a list `to_prune` and no cached strahler
column: the column is computed first with the default standard method
(morpho.py line 467), then the core pruning runs. -/
def prune_by_strahler (ns : List TN) (cs : List Connector) (tp : List Nat) :
    List TN × List Connector :=
  pruneCore ns cs (engineIdx ns false) tp

/-- Largest value of the strahler column,
`neuron.nodes.strahler_index.max()` (missing values are skipped). -/
def maxSIdx (ns : List TN) (si : Nat → Option Nat) : Nat :=
  maxOf ((ns.map (·.treenode_id)).filterMap si)

/-- Python's `range(1, b)` as a list of naturals, for a possibly negative
integer bound. -/
def pyRangeFrom1 (b : Int) : List Nat :=
  (List.range (b - 1).toNat).map (· + 1)

/-- `prune_by_strahler` with an integer `to_prune`: a negative value `k`
is translated to `range(1, max_strahler_index + (k + 1))`
(morpho.py lines 470-473). -/
def prune_by_strahler_int (ns : List TN) (cs : List Connector) (k : Int) :
    List TN × List Connector :=
  let si := engineIdx ns false
  let tp := if k < 0 then pyRangeFrom1 ((maxSIdx ns si : Int) + (k + 1)) else [k.toNat]
  pruneCore ns cs si tp

/-- Two-node chain: root 0 with single child 1. -/
def ex2 : List TN := [⟨0, none, 0, 0, 0, 5⟩, ⟨1, some 0, 0, 0, 0, 5⟩]

/-! Supporting lemmas for the pruning claims. -/

theorem pruneFix_tid (r : List Nat) (n : TN) :
    (pruneFix r n).treenode_id = n.treenode_id := by
  unfold pruneFix
  split <;> rfl

theorem pruneFix_idem (r : List Nat) (n : TN) :
    pruneFix r (pruneFix r n) = pruneFix r n := by
  unfold pruneFix
  cases hp : n.parent_id with
  | none => simp
  | some p =>
    by_cases hm : p ∈ r
    · simp [hp, hm]
    · simp [hp, hm]

theorem pruneCore_nodes_tids (ns : List TN) (cs : List Connector)
    (si : Nat → Option Nat) (tp : List Nat) :
    (pruneCore ns cs si tp).1.map (·.treenode_id) =
      (ns.filter (pruneKeep si tp)).map (·.treenode_id) := by
  unfold pruneCore
  simp only [List.map_map]
  apply List.map_congr_left
  intro a _
  exact pruneFix_tid _ a

theorem pruneCore_def (ns : List TN) (cs : List Connector) (si : Nat → Option Nat)
    (tp : List Nat) :
    pruneCore ns cs si tp =
      ((ns.filter (pruneKeep si tp)).map
          (pruneFix ((ns.filter (pruneKeep si tp)).map (·.treenode_id))),
        cs.filter (fun c =>
          ((ns.filter (pruneKeep si tp)).map (·.treenode_id)).contains c.treenode_id)) := rfl

theorem pruneKeep_fix (si : Nat → Option Nat) (tp : List Nat) (r : List Nat) (n : TN) :
    pruneKeep si tp (pruneFix r n) = pruneKeep si tp n := by
  unfold pruneKeep
  rw [pruneFix_tid]

theorem isinSI_false_iff (si : Nat → Option Nat) (tp : List Nat) (t : Nat) :
    isinSI si tp t = false ↔ ∀ v, si t = some v → v ∉ tp := by
  unfold isinSI
  cases h : si t <;> simp

theorem mem_pruneCore_tids (ns : List TN) (cs : List Connector) (si : Nat → Option Nat)
    (tp : List Nat) (t : Nat) :
    t ∈ (pruneCore ns cs si tp).1.map (·.treenode_id) ↔
      (∃ m ∈ ns, m.treenode_id = t) ∧ isinSI si tp t = false := by
  rw [pruneCore_nodes_tids]
  simp only [List.mem_map, List.mem_filter, pruneKeep, Bool.not_eq_true']
  constructor
  · rintro ⟨a, ⟨ha, hP⟩, rfl⟩
    exact ⟨⟨a, ha, rfl⟩, hP⟩
  · rintro ⟨⟨m, hm, rfl⟩, hfalse⟩
    exact ⟨m, ⟨hm, hfalse⟩, rfl⟩

theorem mem_pyRangeFrom1 (v : Nat) (b : Int) :
    v ∈ pyRangeFrom1 b ↔ 1 ≤ v ∧ (v : Int) < b := by
  simp only [pyRangeFrom1, List.mem_map, List.mem_range]
  constructor
  · rintro ⟨i, hi, rfl⟩
    have h := Int.lt_toNat.mp hi
    constructor
    · omega
    · push_cast
      omega
  · rintro ⟨h1, h2⟩
    refine ⟨v - 1, ?_, by omega⟩
    rw [Int.lt_toNat]
    omega

/-- C4 counterexample: pruning the two-node chain `ex2` with target set
`{1}` removes every node, and `prune_by_strahler` returns a neuron with an
empty node table (and an empty connector table), instead of failing with
an `EmptyResultError` — no such check exists in morpho.py lines 481-509. -/
theorem prune_by_strahler_no_empty_check :
    prune_by_strahler ex2 [⟨10, 1, 0⟩] [1] = ([], []) := by decide

/-- C4 (amended): `prune_by_strahler` performs no emptiness check.  If
every node's computed strahler index is in the target set, the returned
neuron has an empty node table and an empty connector table; the call
returns normally. -/
theorem prune_by_strahler_empty_result (ns : List TN) (cs : List Connector)
    (tp : List Nat)
    (h : ∀ n ∈ ns, isinSI (engineIdx ns false) tp n.treenode_id = true) :
    prune_by_strahler ns cs tp = ([], []) := by
  have h1 : ns.filter (pruneKeep (engineIdx ns false) tp) = [] := by
    rw [List.filter_eq_nil_iff]
    intro a ha
    simp [pruneKeep, h a ha]
  unfold prune_by_strahler
  rw [pruneCore_def, h1]
  simp

/-- Witness for the amended C4 theorem at the three-node tree `ex3` with
target set `{1, 2}`: every computed index is 1, so everything is pruned. -/
theorem prune_by_strahler_empty_result_witness :
    prune_by_strahler ex3 [⟨11, 2, 1⟩] [1, 2] = ([], []) :=
  prune_by_strahler_empty_result ex3 [⟨11, 2, 1⟩] [1, 2] (by decide)

/-- C7 counterexample: after pruning strahler index {1} from the seven-node
binary tree `ex7` (4 nodes removed, 3 survivors), a second
`prune_by_strahler` call with the same target set — which, per §5 of the
spec, recomputes the invalidated strahler column — removes all 3 remaining
nodes instead of zero. -/
theorem prune_by_strahler_not_idempotent :
    (prune_by_strahler ex7 [] [1]).1.length = 3 ∧
      (prune_by_strahler (prune_by_strahler ex7 [] [1]).1
        (prune_by_strahler ex7 [] [1]).2 [1]).1.length = 0 := by decide

/-- C7 (amended): pruning is idempotent when the strahler column cached
from before the first pass is reused instead of being recomputed: a second
`pruneCore` with the same column and the same target set returns the first
result unchanged, removing zero additional nodes. -/
theorem prune_by_strahler_cached_idempotent (ns : List TN) (cs : List Connector)
    (si : Nat → Option Nat) (tp : List Nat) :
    pruneCore (pruneCore ns cs si tp).1 (pruneCore ns cs si tp).2 si tp =
      pruneCore ns cs si tp := by
  rw [pruneCore_def ns cs si tp]
  have hfilt :
      ((ns.filter (pruneKeep si tp)).map
          (pruneFix ((ns.filter (pruneKeep si tp)).map (·.treenode_id)))).filter
        (pruneKeep si tp) =
      (ns.filter (pruneKeep si tp)).map
        (pruneFix ((ns.filter (pruneKeep si tp)).map (·.treenode_id))) := by
    apply List.filter_eq_self.mpr
    intro a ha
    rcases List.mem_map.mp ha with ⟨b, hb, rfl⟩
    rw [pruneKeep_fix]
    exact (List.mem_filter.mp hb).2
  have htids :
      ((ns.filter (pruneKeep si tp)).map
          (pruneFix ((ns.filter (pruneKeep si tp)).map (·.treenode_id)))).map
        (·.treenode_id) =
      (ns.filter (pruneKeep si tp)).map (·.treenode_id) := by
    rw [List.map_map]
    apply List.map_congr_left
    intro a _
    exact pruneFix_tid _ a
  rw [pruneCore_def, hfilt, htids]
  simp only [Prod.mk.injEq]
  refine ⟨?_, ?_⟩
  · rw [List.map_map]
    apply List.map_congr_left
    intro a _
    exact pruneFix_idem _ a
  · apply List.filter_eq_self.mpr
    intro c hc
    exact (List.mem_filter.mp hc).2

/-- C10: for a negative integer `to_prune = k`, `prune_by_strahler` keeps
exactly the nodes whose strahler index is not in
`range(1, max_index + k + 1)`; in particular, for `k = -1`, every node
carrying the maximum strahler index survives. -/
theorem prune_by_strahler_negative_int (ns : List TN) (cs : List Connector)
    (k : Int) (hk : k < 0) :
    (∀ n ∈ ns, (n.treenode_id ∈ (prune_by_strahler_int ns cs k).1.map (·.treenode_id) ↔
        ¬ ∃ v, engineIdx ns false n.treenode_id = some v ∧
            1 ≤ v ∧ (v : Int) < (maxSIdx ns (engineIdx ns false) : Int) + (k + 1))) ∧
    (k = -1 → ∀ n ∈ ns,
        engineIdx ns false n.treenode_id = some (maxSIdx ns (engineIdx ns false)) →
        n.treenode_id ∈ (prune_by_strahler_int ns cs k).1.map (·.treenode_id)) := by
  have hdef : prune_by_strahler_int ns cs k =
      pruneCore ns cs (engineIdx ns false)
        (pyRangeFrom1 ((maxSIdx ns (engineIdx ns false) : Int) + (k + 1))) := by
    unfold prune_by_strahler_int
    simp only [hk, if_true]
  have hmain : ∀ n ∈ ns,
      (n.treenode_id ∈ (prune_by_strahler_int ns cs k).1.map (·.treenode_id) ↔
        ¬ ∃ v, engineIdx ns false n.treenode_id = some v ∧
            1 ≤ v ∧ (v : Int) < (maxSIdx ns (engineIdx ns false) : Int) + (k + 1)) := by
    intro n hn
    rw [hdef, mem_pruneCore_tids]
    constructor
    · rintro ⟨-, hfalse⟩ ⟨v, hv, h1, h2⟩
      exact ((isinSI_false_iff _ _ _).mp hfalse v hv)
        ((mem_pyRangeFrom1 v _).mpr ⟨h1, h2⟩)
    · intro hno
      refine ⟨⟨n, hn, rfl⟩, (isinSI_false_iff _ _ _).mpr ?_⟩
      intro v hv hvmem
      rcases (mem_pyRangeFrom1 v _).mp hvmem with ⟨h1, h2⟩
      exact hno ⟨v, hv, h1, h2⟩
  refine ⟨hmain, ?_⟩
  rintro rfl n hn hmax
  rw [hmain n hn]
  rintro ⟨v, hv, -, h2⟩
  rw [hmax] at hv
  cases hv
  omega

/-- Witness for the C10 theorem: on the seven-node binary tree `ex7` with
`to_prune = -1`, node 1 carries the maximum index 2 and survives. -/
theorem prune_by_strahler_negative_int_witness :
    1 ∈ (prune_by_strahler_int ex7 [] (-1)).1.map (·.treenode_id) :=
  (prune_by_strahler_negative_int ex7 [] (-1) (by decide)).2 rfl
    ⟨1, some 0, 0, 0, 0, 5⟩ (by decide) (by decide)

/-! Comparing the standard and the greedy run of the Strahler engine.  The
two runs traverse the tree identically (frontier evolution does not depend
on the computed values), and every assigned value of the greedy run
dominates the corresponding standard value. -/

/-- Pointwise relation between the standard-run state and the greedy-run
state: same processed list, and each node is either unassigned in both or
assigned in both with the standard value below the greedy one. -/
def ParRel (stS stG : SEng) : Prop :=
  stS.processed = stG.processed ∧
  ∀ n, (stS.idx n = none ∧ stG.idx n = none) ∨
    (∃ v w, stS.idx n = some v ∧ stG.idx n = some w ∧ v ≤ w)

theorem maxOf_mono {ps qs : List Nat} (h : List.Forall₂ (· ≤ ·) ps qs) :
    maxOf ps ≤ maxOf qs := by
  induction h with
  | nil => exact le_refl _
  | cons h1 _ ih =>
    simp only [maxOf, List.foldr] at *
    exact max_le_max h1 ih

theorem branchIndexOf_mono {ps qs : List Nat} (h : List.Forall₂ (· ≤ ·) ps qs) :
    branchIndexOf ps false ≤ branchIndexOf qs true := by
  cases h with
  | nil => exact le_refl _
  | @cons a b l m h1 htail =>
    cases htail with
    | nil => exact h1
    | @cons a2 b2 l2 m2 h2 htail2 =>
      have hm : maxOf (a :: a2 :: l2) ≤ maxOf (b :: b2 :: m2) :=
        maxOf_mono (List.Forall₂.cons h1 (List.Forall₂.cons h2 htail2))
      simp only [branchIndexOf, Bool.or_true, or_true, if_true]
      split <;> omega

theorem filterMap_rel {iS iG : Nat → Option Nat}
    (h : ∀ n, (iS n = none ∧ iG n = none) ∨ ∃ v w, iS n = some v ∧ iG n = some w ∧ v ≤ w)
    (l : List Nat) :
    List.Forall₂ (· ≤ ·) (l.filterMap iS) (l.filterMap iG) := by
  induction l with
  | nil => simp
  | cons a l ih =>
    rcases h a with ⟨h1, h2⟩ | ⟨v, w, h1, h2, h3⟩
    · simpa [List.filterMap_cons, h1, h2] using ih
    · simpa [List.filterMap_cons, h1, h2] using List.Forall₂.cons h3 ih

theorem process_par (ns : List TN) (br : List Nat) (stS stG : SEng) (en : Nat)
    (h : ParRel stS stG) :
    ParRel (processFrontierNode false ns br stS en).1
        (processFrontierNode true ns br stG en).1 ∧
      (processFrontierNode false ns br stS en).2 =
        (processFrontierNode true ns br stG en).2 := by
  obtain ⟨hproc, hidx⟩ := h
  have hbi : branchIndexOf ((childsOf ns en).filterMap stS.idx) false ≤
      branchIndexOf ((childsOf ns en).filterMap stG.idx) true :=
    branchIndexOf_mono (filterMap_rel hidx _)
  unfold processFrontierNode
  simp only [hproc]
  refine ⟨⟨by trivial, ?_⟩, by trivial⟩
  intro n
  by_cases hm : n ∈ (spineWalk ns br ns.length en).1
  · right
    exact ⟨_, _, by simp [hm], by simp [hm], hbi⟩
  · rcases hidx n with ⟨h1, h2⟩ | ⟨v, w, h1, h2, h3⟩
    · left
      constructor <;> simp [hm, h1, h2]
    · right
      exact ⟨v, w, by simp [hm, h1], by simp [hm, h2], h3⟩

theorem pass_par (ns : List TN) (br : List Nat) :
    ∀ (F : List Nat) (stS stG : SEng), ParRel stS stG →
      ParRel (strahlerPass false ns br F stS).1 (strahlerPass true ns br F stG).1 ∧
        (strahlerPass false ns br F stS).2 = (strahlerPass true ns br F stG).2 := by
  intro F
  induction F with
  | nil => exact fun stS stG h => ⟨h, rfl⟩
  | cons en rest ih =>
    intro stS stG h
    obtain ⟨hst, hnp⟩ := process_par ns br stS stG en h
    obtain ⟨hst2, hnp2⟩ := ih _ _ hst
    simp only [strahlerPass]
    exact ⟨hst2, by rw [hnp, hnp2]⟩

theorem loop_par (ns : List TN) (br : List Nat) :
    ∀ (fuel : Nat) (F : List Nat) (stS stG : SEng), ParRel stS stG →
      ParRel (strahlerLoop false ns br fuel F stS) (strahlerLoop true ns br fuel F stG) := by
  intro fuel
  induction fuel with
  | zero => exact fun F stS stG h => h
  | succ fuel ih =>
    intro F stS stG h
    cases F with
    | nil => exact h
    | cons en rest =>
      obtain ⟨hst, hnp⟩ := pass_par ns br (en :: rest) stS stG h
      simp only [strahlerLoop]
      rw [hnp]
      exact ih _ _ _ hst

theorem strahler_par (ns : List TN) :
    ParRel (strahler_index ns false) (strahler_index ns true) := by
  unfold strahler_index
  exact loop_par ns (branchIds ns) (ns.length + 1) (endIds ns) _ _
    ⟨rfl, fun n => Or.inl ⟨rfl, rfl⟩⟩

/-- C6: on the same node table, whenever the standard Strahler run assigns
a node the index `v`, the greedy run assigns it an index `w ≥ v`. -/
theorem strahler_greedy_ge_standard (ns : List TN) (n : Nat) (v : Nat)
    (hv : engineIdx ns false n = some v) :
    ∃ w, engineIdx ns true n = some w ∧ v ≤ w := by
  unfold engineIdx at hv ⊢
  rcases (strahler_par ns).2 n with ⟨h1, _⟩ | ⟨v', w, h1, h2, h3⟩
  · rw [h1] at hv
    cases hv
  · rw [h1] at hv
    obtain rfl : v' = v := Option.some.inj hv
    exact ⟨w, h2, h3⟩

/-- Witness for C6 on the seven-node binary tree: the standard run gives
node 1 the index 2 and the greedy run dominates it. -/
theorem strahler_greedy_ge_standard_witness :
    ∃ w, engineIdx ex7 true 1 = some w ∧ 2 ≤ w :=
  strahler_greedy_ge_standard ex7 1 2 (by decide)

/-! Invariants of the Strahler engine.  The goal is the per-node
recurrence between a processed node's final index and its children's
indices (claim about morpho.py lines 348-359), proved for every
well-formed node table. -/

/-- Well-formed node table, the §3 data-model invariant: treenode ids are
unique and parent links admit a strictly decreasing measure (so following
parents terminates: no cycles). -/
structure WTable (ns : List TN) : Prop where
  nodup : (ns.map (·.treenode_id)).Nodup
  acyc : ∃ h : Nat → Nat, ∀ m ∈ ns, ∀ p, m.parent_id = some p → h p < h m.treenode_id

theorem rowOf_eq_of_mem {ns : List TN} (hnd : (ns.map (·.treenode_id)).Nodup)
    {m : TN} (hm : m ∈ ns) : rowOf ns m.treenode_id = some m := by
  induction ns with
  | nil => cases hm
  | cons a l ih =>
    rcases List.mem_cons.mp hm with rfl | hml
    · unfold rowOf
      simp [List.find?_cons]
    · have hne : a.treenode_id ≠ m.treenode_id := by
        intro he
        have : m.treenode_id ∈ l.map (·.treenode_id) := List.mem_map_of_mem _ hml
        rw [← he] at this
        exact (List.nodup_cons.mp hnd).1 this
      unfold rowOf at ih ⊢
      rw [List.find?_cons]
      split
      · next hfound =>
        exact absurd (of_decide_eq_true hfound) hne
      · exact ih (List.nodup_cons.mp hnd).2 hml

theorem parentOf_eq_of_mem {ns : List TN} (hnd : (ns.map (·.treenode_id)).Nodup)
    {m : TN} (hm : m ∈ ns) : parentOf ns m.treenode_id = m.parent_id := by
  unfold parentOf
  rw [rowOf_eq_of_mem hnd hm]

theorem childsOf_mem_iff {ns : List TN} {c x : Nat} :
    c ∈ childsOf ns x ↔ ∃ m ∈ ns, m.treenode_id = c ∧ m.parent_id = some x := by
  unfold childsOf
  simp only [List.mem_map, List.mem_filter, decide_eq_true_eq]
  constructor
  · rintro ⟨m, ⟨hm, hp⟩, rfl⟩
    exact ⟨m, hm, rfl, hp⟩
  · rintro ⟨m, hm, rfl, hp⟩
    exact ⟨m, ⟨hm, hp⟩, rfl⟩

theorem parentOf_of_childs {ns : List TN} (hnd : (ns.map (·.treenode_id)).Nodup)
    {c x : Nat} (hc : c ∈ childsOf ns x) : parentOf ns c = some x := by
  rcases childsOf_mem_iff.mp hc with ⟨m, hm, rfl, hp⟩
  rw [parentOf_eq_of_mem hnd hm, hp]

theorem parentOf_some_row {ns : List TN} {c x : Nat} (h : parentOf ns c = some x) :
    ∃ m ∈ ns, m.treenode_id = c ∧ m.parent_id = some x := by
  unfold parentOf rowOf at h
  cases hf : ns.find? (fun m => m.treenode_id = c) with
  | none => rw [hf] at h; cases h
  | some m =>
    rw [hf] at h
    have hp := List.find?_some hf
    simp only [decide_eq_true_eq] at hp
    exact ⟨m, List.mem_of_find?_eq_some hf, hp, h⟩

theorem parentOf_some_childs {ns : List TN} {c x : Nat} (h : parentOf ns c = some x) :
    c ∈ childsOf ns x := by
  rcases parentOf_some_row h with ⟨m, hm, rfl, hp⟩
  exact childsOf_mem_iff.mpr ⟨m, hm, rfl, hp⟩

theorem parentOf_measure {ns : List TN} {hfn : Nat → Nat}
    (hh : ∀ m ∈ ns, ∀ p, m.parent_id = some p → hfn p < hfn m.treenode_id)
    {c x : Nat} (h : parentOf ns c = some x) : hfn x < hfn c := by
  rcases parentOf_some_row h with ⟨m, hm, rfl, hp⟩
  exact hh m hm x hp

theorem branchIds_spec {ns : List TN} {b : Nat} (hb : b ∈ branchIds ns) :
    ∃ m ∈ ns, m.treenode_id = b ∧ m.parent_id ≠ none ∧ 2 ≤ (childsOf ns b).length := by
  unfold branchIds at hb
  simp only [List.mem_map, List.mem_filter, decide_eq_true_eq] at hb
  rcases hb with ⟨m, ⟨hm, hcl⟩, rfl⟩
  unfold classify_nodes at hcl
  split_ifs at hcl with h1 h2 h3
  · exact ⟨m, hm, rfl, h1, h3⟩

theorem mem_branchIds {ns : List TN} {m : TN} (hm : m ∈ ns)
    (hp : m.parent_id ≠ none) (h2 : 2 ≤ (childsOf ns m.treenode_id).length) :
    m.treenode_id ∈ branchIds ns := by
  unfold branchIds
  refine List.mem_map_of_mem _ (List.mem_filter.mpr ⟨hm, ?_⟩)
  have hne : childsOf ns m.treenode_id ≠ [] := by
    intro he
    rw [he] at h2
    simp at h2
  simp only [classify_nodes, hp, hne, h2, decide_eq_true_eq, if_false, if_true]

theorem endIds_spec {ns : List TN} {b : Nat} (hb : b ∈ endIds ns) :
    ∃ m ∈ ns, m.treenode_id = b ∧ m.parent_id ≠ none ∧ childsOf ns b = [] := by
  unfold endIds at hb
  simp only [List.mem_map, List.mem_filter, decide_eq_true_eq] at hb
  rcases hb with ⟨m, ⟨hm, hcl⟩, rfl⟩
  unfold classify_nodes at hcl
  split_ifs at hcl with h1 h2
  · exact ⟨m, hm, rfl, h1, h2⟩

theorem parentOf_row_none {ns : List TN} {s : Nat} (hrow : rowOf ns s = none) :
    parentOf ns s = none := by
  unfold parentOf
  rw [hrow]

theorem parentOf_row_some {ns : List TN} {s : Nat} {m : TN} (hrow : rowOf ns s = some m) :
    parentOf ns s = m.parent_id := by
  unfold parentOf
  rw [hrow]

theorem not_branch_childs_le_one {ns : List TN} {s : Nat}
    (hps : (parentOf ns s).isSome) (hnb : s ∉ branchIds ns) :
    (childsOf ns s).length ≤ 1 := by
  by_contra hgt
  push_neg at hgt
  cases hrow : rowOf ns s with
  | none =>
    rw [parentOf_row_none hrow] at hps
    cases hps
  | some m =>
    have hm : m ∈ ns := List.mem_of_find?_eq_some hrow
    have htid := List.find?_some hrow
    simp only [decide_eq_true_eq] at htid
    have hpne : m.parent_id ≠ none := by
      intro he
      rw [parentOf_row_some hrow, he] at hps
      cases hps
    have hbm := mem_branchIds hm hpne (by rw [htid]; omega)
    rw [htid] at hbm
    exact hnb hbm

theorem length_one_mem_eq {l : List Nat} {c : Nat} (hc : c ∈ l) (hl : l.length ≤ 1) :
    l = [c] := by
  cases l with
  | nil => cases hc
  | cons a t =>
    cases t with
    | nil =>
      rcases List.mem_singleton.mp hc with rfl
      rfl
    | cons b t2 => simp at hl

theorem chain'_pred {r : Nat → Nat → Prop} :
    ∀ (l : List Nat) (a : Nat), List.Chain' r (a :: l) → ∀ s ∈ l, ∃ c ∈ a :: l, r c s := by
  intro l
  induction l with
  | nil =>
    intro a _ s hs
    cases hs
  | cons b l2 ih =>
    intro a hch s hs
    have hab : r a b := (List.chain'_cons.mp hch).1
    have htail : List.Chain' r (b :: l2) := (List.chain'_cons.mp hch).2
    rcases List.mem_cons.mp hs with rfl | hs2
    · exact ⟨a, List.mem_cons_self _ _, hab⟩
    · rcases ih b htail s hs2 with ⟨c, hc, hcs⟩
      exact ⟨c, List.mem_cons_of_mem _ hc, hcs⟩

theorem chain'_measure {r : Nat → Nat → Prop} (f : Nat → Nat)
    (hr : ∀ a b, r a b → f b < f a) :
    ∀ (l : List Nat) (a : Nat), List.Chain' r (a :: l) → ∀ s ∈ l, f s < f a := by
  intro l
  induction l with
  | nil =>
    intro a _ s hs
    cases hs
  | cons b l2 ih =>
    intro a hch s hs
    have hab : f b < f a := hr _ _ (List.chain'_cons.mp hch).1
    rcases List.mem_cons.mp hs with rfl | hs2
    · exact hab
    · exact lt_trans (ih b (List.chain'_cons.mp hch).2 s hs2) hab

theorem spineWalk_succ_none {ns : List TN} {br : List Nat} {f t : Nat}
    (hp : parentOf ns t = none) : spineWalk ns br (f+1) t = ([t], none) := by
  unfold spineWalk
  rw [hp]

theorem spineWalk_succ_branch {ns : List TN} {br : List Nat} {f t p : Nat}
    (hp : parentOf ns t = some p) (hbr : p ∈ br) :
    spineWalk ns br (f+1) t = ([t], some p) := by
  unfold spineWalk
  rw [hp]
  simp [hbr]

theorem spineWalk_succ_step {ns : List TN} {br : List Nat} {f t p : Nat}
    (hp : parentOf ns t = some p) (hbr : p ∉ br) :
    spineWalk ns br (f+1) t =
      (t :: (spineWalk ns br f p).1, (spineWalk ns br f p).2) := by
  conv_lhs => rw [spineWalk]
  rw [hp]
  simp [hbr]

theorem spineWalk_head (ns : List TN) (br : List Nat) :
    ∀ (fuel t : Nat), ∃ tl, (spineWalk ns br fuel t).1 = t :: tl := by
  intro fuel t
  cases fuel with
  | zero => exact ⟨[], rfl⟩
  | succ f =>
    cases hp : parentOf ns t with
    | none => exact ⟨[], by rw [spineWalk_succ_none hp]⟩
    | some p =>
      by_cases hbr : p ∈ br
      · exact ⟨[], by rw [spineWalk_succ_branch hp hbr]⟩
      · exact ⟨(spineWalk ns br f p).1, by rw [spineWalk_succ_step hp hbr]⟩

theorem spineWalk_chain (ns : List TN) (br : List Nat) :
    ∀ (fuel t : Nat),
      List.Chain' (fun a c => parentOf ns a = some c ∧ c ∉ br) (spineWalk ns br fuel t).1 := by
  intro fuel
  induction fuel with
  | zero =>
    intro t
    simp [spineWalk]
  | succ f ih =>
    intro t
    cases hp : parentOf ns t with
    | none =>
      rw [spineWalk_succ_none hp]
      simp
    | some p =>
      by_cases hbr : p ∈ br
      · rw [spineWalk_succ_branch hp hbr]
        simp
      · rw [spineWalk_succ_step hp hbr]
        obtain ⟨tl, htl⟩ := spineWalk_head ns br f p
        rw [List.chain'_cons']
        constructor
        · intro y hy
          rw [htl] at hy
          simp only [List.head?_cons] at hy
          obtain rfl : p = y := Option.some.inj (Option.mem_def.mp hy)
          exact ⟨hp, hbr⟩
        · exact ih p

theorem spineWalk_stop (ns : List TN) (br : List Nat) :
    ∀ (fuel t : Nat) (B : Nat), (spineWalk ns br fuel t).2 = some B →
      B ∈ br ∧ ∃ lst, (spineWalk ns br fuel t).1.getLast? = some lst ∧
        parentOf ns lst = some B := by
  intro fuel
  induction fuel with
  | zero =>
    intro t B h
    cases h
  | succ f ih =>
    intro t B h
    cases hp : parentOf ns t with
    | none =>
      rw [spineWalk_succ_none hp] at h
      cases h
    | some p =>
      by_cases hbr : p ∈ br
      · rw [spineWalk_succ_branch hp hbr] at h ⊢
        obtain rfl : p = B := Option.some.inj h
        exact ⟨hbr, t, rfl, hp⟩
      · rw [spineWalk_succ_step hp hbr] at h ⊢
        obtain ⟨hB, lst, hlst, hpl⟩ := ih p B h
        refine ⟨hB, lst, ?_, hpl⟩
        obtain ⟨tl, htl⟩ := spineWalk_head ns br f p
        rw [htl] at hlst ⊢
        simp only [List.getLast?_cons_cons]
        exact hlst

theorem mem_of_getLast?_some {l : List Nat} {a : Nat} (h : l.getLast? = some a) :
    a ∈ l := by
  have h2 : a ∈ l.getLast? := h ▸ rfl
  rcases List.mem_getLast?_eq_getLast h2 with ⟨hne, rfl⟩
  exact List.getLast_mem hne

/-- Invariants maintained by the Strahler engine state: every processed
node is assigned; an assigned node with a parent has all children assigned
and its value satisfies the per-branch recurrence of morpho.py lines
348-359; an assigned parentless node carries the value of one of its
children (the last spine that ran into it). -/
structure EngInv (ns : List TN) (greedy : Bool) (st : SEng) : Prop where
  procSome : ∀ n ∈ st.processed, (st.idx n).isSome
  downClosed : ∀ n, (parentOf ns n).isSome → (st.idx n).isSome →
    ∀ c ∈ childsOf ns n, (st.idx c).isSome
  recur : ∀ n v, (parentOf ns n).isSome → st.idx n = some v →
    v = branchIndexOf ((childsOf ns n).filterMap st.idx) greedy
  rootWit : ∀ n v, parentOf ns n = none → st.idx n = some v →
    ∃ c ∈ childsOf ns n, st.idx c = some v

/-- A valid frontier entry: unassigned, has a parent, is an end or a
branch (zero or at least two children), and all its children are already
assigned. -/
def FrontOK (ns : List TN) (st : SEng) (b : Nat) : Prop :=
  st.idx b = none ∧ (parentOf ns b).isSome ∧
    (childsOf ns b = [] ∨ 2 ≤ (childsOf ns b).length) ∧
    ∀ c ∈ childsOf ns b, (st.idx c).isSome

theorem chain_unassigned {ns : List TN} {st : SEng}
    (dc : ∀ n, (parentOf ns n).isSome → (st.idx n).isSome →
      ∀ c ∈ childsOf ns n, (st.idx c).isSome) :
    ∀ (l : List Nat) (a : Nat),
      List.Chain' (fun u w => parentOf ns u = some w) (a :: l) →
      st.idx a = none →
      ∀ s ∈ a :: l, (parentOf ns s).isSome → st.idx s = none := by
  intro l
  induction l with
  | nil =>
    intro a _ ha s hs _
    rcases List.mem_singleton.mp hs with rfl
    exact ha
  | cons b l2 ih =>
    intro a hch ha s hs hps
    have hab : parentOf ns a = some b := (List.chain'_cons.mp hch).1
    have htail := (List.chain'_cons.mp hch).2
    rcases List.mem_cons.mp hs with rfl | hs2
    · exact ha
    · by_cases hpb : (parentOf ns b).isSome
      · have hb : st.idx b = none := by
          cases hib : st.idx b with
          | none => rfl
          | some v =>
            have hcs := dc b hpb (by rw [hib]; rfl) a (parentOf_some_childs hab)
            rw [ha] at hcs
            cases hcs
        exact ih b htail hb s hs2 hps
      · cases l2 with
        | nil =>
          rcases List.mem_singleton.mp hs2 with rfl
          exact absurd hps hpb
        | cons c l3 =>
          have hbc : parentOf ns b = some c := (List.chain'_cons.mp htail).1
          rw [hbc] at hpb
          exact absurd rfl hpb

theorem processFrontierNode_def (greedy : Bool) (ns : List TN) (br : List Nat)
    (st : SEng) (en : Nat) :
    processFrontierNode greedy ns br st en =
      (⟨fun m => if m ∈ (spineWalk ns br ns.length en).1
           then some (branchIndexOf ((childsOf ns en).filterMap st.idx) greedy)
           else st.idx m,
        st.processed ++ (spineWalk ns br ns.length en).1⟩,
       match (spineWalk ns br ns.length en).2 with
       | some bb =>
         if (childsOf ns bb).all
             (fun c => decide (c ∈ st.processed ++ (spineWalk ns br ns.length en).1))
           then [bb] else []
       | none => []) := rfl

theorem spine_unassigned {ns : List TN} {st : SEng} {b : Nat}
    (dc : ∀ n, (parentOf ns n).isSome → (st.idx n).isSome →
      ∀ c ∈ childsOf ns n, (st.idx c).isSome)
    (hb : st.idx b = none) :
    ∀ s ∈ (spineWalk ns (branchIds ns) ns.length b).1,
      (parentOf ns s).isSome → st.idx s = none := by
  obtain ⟨tl, htl⟩ := spineWalk_head ns (branchIds ns) ns.length b
  have hch := spineWalk_chain ns (branchIds ns) ns.length b
  rw [htl] at hch
  have hch2 : List.Chain' (fun u w => parentOf ns u = some w) (b :: tl) :=
    hch.imp (fun _ _ h => h.1)
  intro s hs
  rw [htl] at hs
  exact chain_unassigned dc tl b hch2 hb s hs

theorem process_step (ns : List TN) (greedy : Bool)
    (hnd : (ns.map (·.treenode_id)).Nodup)
    (hfn : Nat → Nat)
    (hh : ∀ m ∈ ns, ∀ p, m.parent_id = some p → hfn p < hfn m.treenode_id)
    (st : SEng) (b : Nat) (others : List Nat)
    (inv : EngInv ns greedy st) (hb : FrontOK ns st b)
    (ho : ∀ x ∈ others, FrontOK ns st x) (hbo : b ∉ others) :
    EngInv ns greedy (processFrontierNode greedy ns (branchIds ns) st b).1 ∧
      (∀ x ∈ others, FrontOK ns (processFrontierNode greedy ns (branchIds ns) st b).1 x) ∧
      (∀ x ∈ (processFrontierNode greedy ns (branchIds ns) st b).2,
          FrontOK ns (processFrontierNode greedy ns (branchIds ns) st b).1 x ∧ x ∉ others) ∧
      (processFrontierNode greedy ns (branchIds ns) st b).2.Nodup := by
  obtain ⟨hbnone, hbpar, hbshape, hbkids⟩ := hb
  set br := branchIds ns with hbrdef
  set sp := (spineWalk ns br ns.length b).1 with hspdef
  set bi := branchIndexOf ((childsOf ns b).filterMap st.idx) greedy with hbidef
  set idxN : Nat → Option Nat := fun m => if m ∈ sp then some bi else st.idx m with hidxdef
  have hfst : (processFrontierNode greedy ns br st b).1 = ⟨idxN, st.processed ++ sp⟩ := rfl
  -- spine structure facts
  obtain ⟨tl, htl⟩ := spineWalk_head ns br ns.length b
  have hchain := spineWalk_chain ns br ns.length b
  have hunas : ∀ s ∈ sp, (parentOf ns s).isSome → st.idx s = none :=
    spine_unassigned inv.downClosed hbnone
  have hmem_sp : ∀ s ∈ sp, s = b ∨ s ∈ tl := by
    intro s hs
    rw [hspdef, htl] at hs
    exact List.mem_cons.mp hs
  have hb_mem_sp : b ∈ sp := by
    rw [hspdef, htl]
    exact List.mem_cons_self _ _
  have hlt : ∀ s ∈ tl, hfn s < hfn b := by
    have hch2 : List.Chain' (fun u w => hfn w < hfn u) (b :: tl) := by
      rw [htl] at hchain
      exact hchain.imp (fun _ _ h => parentOf_measure hh h.1)
    exact fun s hs => chain'_measure hfn (fun _ _ h => h) tl b hch2 s hs
  have hpred : ∀ s ∈ tl, ∃ c ∈ sp, parentOf ns c = some s ∧ s ∉ br := by
    intro s hs
    rw [htl] at hchain
    obtain ⟨c, hc, hcs⟩ := chain'_pred tl b hchain s hs
    refine ⟨c, ?_, hcs.1, hcs.2⟩
    rw [hspdef, htl]
    exact hc
  have hchb : ∀ c ∈ childsOf ns b, c ∉ sp := by
    intro c hc hcsp
    have hpc : parentOf ns c = some b := parentOf_of_childs hnd hc
    have h1 : hfn b < hfn c := parentOf_measure hh hpc
    rcases hmem_sp c hcsp with rfl | hctl
    · omega
    · have := hlt c hctl
      omega
  have htlchild : ∀ s ∈ tl, (parentOf ns s).isSome →
      ∃ c, childsOf ns s = [c] ∧ c ∈ sp := by
    intro s hs hps
    obtain ⟨c, hcsp, hpc, hsnb⟩ := hpred s hs
    have hcmem : c ∈ childsOf ns s := parentOf_some_childs hpc
    have hle := not_branch_childs_le_one hps hsnb
    exact ⟨c, length_one_mem_eq hcmem hle, hcsp⟩
  -- idx update facts
  have hidx_sp : ∀ s ∈ sp, idxN s = some bi := by
    intro s hs
    rw [hidxdef]
    exact if_pos hs
  have hidx_out : ∀ s, s ∉ sp → idxN s = st.idx s := by
    intro s hs
    rw [hidxdef]
    exact if_neg hs
  have hidx_mono : ∀ s, (st.idx s).isSome → (idxN s).isSome := by
    intro s hsome
    by_cases hsp2 : s ∈ sp
    · rw [hidx_sp s hsp2]
      rfl
    · rw [hidx_out s hsp2]
      exact hsome
  have hfmb : (childsOf ns b).filterMap idxN = (childsOf ns b).filterMap st.idx :=
    List.filterMap_congr (fun c hc => hidx_out c (hchb c hc))
  have hrec_tl : ∀ s ∈ tl, (parentOf ns s).isSome →
      bi = branchIndexOf ((childsOf ns s).filterMap idxN) greedy := by
    intro s hs hps
    obtain ⟨c, hcs, hcsp⟩ := htlchild s hs hps
    rw [hcs, List.filterMap_cons, hidx_sp c hcsp]
    rfl
  -- new-state invariant
  have hinvN : EngInv ns greedy ⟨idxN, st.processed ++ sp⟩ := by
    refine ⟨?_, ?_, ?_, ?_⟩ <;> dsimp only
    · intro n hn
      rcases List.mem_append.mp hn with hold | hsp2
      · exact hidx_mono n (inv.procSome n hold)
      · rw [hidx_sp n hsp2]
        rfl
    · intro n hpn hin c hc
      by_cases hnsp : n ∈ sp
      · rcases hmem_sp n hnsp with rfl | hntl
        · exact hidx_mono c (hbkids c hc)
        · obtain ⟨c', hc', hc'sp⟩ := htlchild n hntl hpn
          rw [hc'] at hc
          rcases List.mem_singleton.mp hc with rfl
          rw [hidx_sp c hc'sp]
          rfl
      · rw [hidx_out n hnsp] at hin
        exact hidx_mono c (inv.downClosed n hpn hin c hc)
    · intro n v hpn hin
      by_cases hnsp : n ∈ sp
      · rw [hidx_sp n hnsp] at hin
        obtain rfl : bi = v := Option.some.inj hin
        rcases hmem_sp n hnsp with rfl | hntl
        · rw [hfmb]
        · exact hrec_tl n hntl hpn
      · rw [hidx_out n hnsp] at hin
        have hv := inv.recur n v hpn hin
        rw [hv]
        congr 1
        apply List.filterMap_congr
        intro c hc
        refine (hidx_out c ?_).symm
        intro hcsp
        have hpc : parentOf ns c = some n := parentOf_of_childs hnd hc
        have hnone := hunas c hcsp (by rw [hpc]; rfl)
        have hsome := inv.downClosed n hpn (by rw [hin]; rfl) c hc
        rw [hnone] at hsome
        cases hsome
    · intro n v hpn hin
      by_cases hnsp : n ∈ sp
      · rcases hmem_sp n hnsp with rfl | hntl
        · rw [hpn] at hbpar
          cases hbpar
        · obtain ⟨c, hcsp, hpc, -⟩ := hpred n hntl
          rw [hidx_sp n hnsp] at hin
          obtain rfl : bi = v := Option.some.inj hin
          exact ⟨c, parentOf_some_childs hpc, hidx_sp c hcsp⟩
      · rw [hidx_out n hnsp] at hin
        obtain ⟨c, hc, hcv⟩ := inv.rootWit n v hpn hin
        refine ⟨c, hc, ?_⟩
        have hcnot : c ∉ sp := by
          intro hcsp
          have hpc : parentOf ns c = some n := parentOf_of_childs hnd hc
          have hnone := hunas c hcsp (by rw [hpc]; rfl)
          rw [hnone] at hcv
          cases hcv
        rw [hidx_out c hcnot]
        exact hcv
  -- frontier entries other than b survive
  have hothersN : ∀ x ∈ others, FrontOK ns ⟨idxN, st.processed ++ sp⟩ x := by
    intro x hx
    unfold FrontOK
    dsimp only
    obtain ⟨hx1, hx2, hx3, hx4⟩ := ho x hx
    have hxnot : x ∉ sp := by
      intro hxsp
      rcases hmem_sp x hxsp with rfl | hxtl
      · exact hbo hx
      · obtain ⟨c, hcsp, hpc, hxnb⟩ := hpred x hxtl
        have hcx : c ∈ childsOf ns x := parentOf_some_childs hpc
        have hxne : childsOf ns x ≠ [] := by
          intro he
          rw [he] at hcx
          cases hcx
        rcases hx3 with hnil | h2
        · exact hxne hnil
        · cases hrow : rowOf ns x with
          | none =>
            rw [parentOf_row_none hrow] at hx2
            cases hx2
          | some m =>
            have hm : m ∈ ns := List.mem_of_find?_eq_some hrow
            have htid := List.find?_some hrow
            simp only [decide_eq_true_eq] at htid
            have hpne : m.parent_id ≠ none := by
              intro he
              rw [parentOf_row_some hrow, he] at hx2
              cases hx2
            have hbm := mem_branchIds hm hpne (by rw [htid]; exact h2)
            rw [htid] at hbm
            exact hxnb hbm
    refine ⟨?_, hx2, hx3, fun c hc => hidx_mono c (hx4 c hc)⟩
    show idxN x = none
    rw [hidx_out x hxnot]
    exact hx1
  -- characterize the emitted new starting points
  have hnp : (processFrontierNode greedy ns br st b).2 = [] ∨
      ∃ B, (processFrontierNode greedy ns br st b).2 = [B] ∧
        (spineWalk ns br ns.length b).2 = some B ∧
        ∀ c ∈ childsOf ns B, c ∈ st.processed ++ sp := by
    have hsnd : (processFrontierNode greedy ns br st b).2 =
        (match (spineWalk ns br ns.length b).2 with
         | some bb =>
           if (childsOf ns bb).all (fun c => decide (c ∈ st.processed ++ sp))
             then [bb] else []
         | none => []) := rfl
    rw [hsnd]
    cases hstp : (spineWalk ns br ns.length b).2 with
    | none => exact Or.inl rfl
    | some B =>
      by_cases hall : (childsOf ns B).all (fun c => decide (c ∈ st.processed ++ sp)) = true
      · refine Or.inr ⟨B, by dsimp only; rw [if_pos hall], rfl, ?_⟩
        intro c hc
        exact of_decide_eq_true (List.all_eq_true.mp hall c hc)
      · left
        dsimp only
        rw [if_neg hall]
  -- assemble the four conjuncts
  refine ⟨by rw [hfst]; exact hinvN, by rw [hfst]; exact hothersN, ?_, ?_⟩
  · rcases hnp with hnil | ⟨B, hB, hstp, hallm⟩
    · rw [hnil]
      intro x hx
      cases hx
    · rw [hB, hfst]
      intro x hx
      rcases List.mem_singleton.mp hx with rfl
      obtain ⟨hBbr, lst, hlst, hplst⟩ := spineWalk_stop ns br ns.length b x hstp
      have hlst_sp : lst ∈ sp := by
        rw [hspdef]
        exact mem_of_getLast?_some hlst
      obtain ⟨mB, hmB, htidB, hpneB, h2B⟩ := branchIds_spec hBbr
      have hparB : parentOf ns x = mB.parent_id := by
        rw [← htidB]
        exact parentOf_eq_of_mem hnd hmB
      have hparBsome : (parentOf ns x).isSome := by
        rw [hparB]
        exact Option.ne_none_iff_isSome.mp hpneB
      have hlstchild : lst ∈ childsOf ns x := parentOf_some_childs hplst
      have hlst_unas : st.idx lst = none := hunas lst hlst_sp (by rw [hplst]; rfl)
      have hBnot : x ∉ sp := by
        intro hBsp
        rcases hmem_sp x hBsp with heq | hBtl
        · subst heq
          have h1 : hfn x < hfn lst := parentOf_measure hh hplst
          rcases hmem_sp lst hlst_sp with rfl | hltl
          · omega
          · have h2 := hlt lst hltl
            omega
        · obtain ⟨c0, hc0, hp0, hBnb⟩ := hpred x hBtl
          exact hBnb hBbr
      have hBnone : st.idx x = none := by
        cases hiB : st.idx x with
        | none => rfl
        | some v =>
          have hsm := inv.downClosed x hparBsome (by rw [hiB]; rfl) lst hlstchild
          rw [hlst_unas] at hsm
          cases hsm
      have hkidsB : ∀ c ∈ childsOf ns x, (idxN c).isSome := by
        intro c hc
        rcases List.mem_append.mp (hallm c hc) with hold | hsp2
        · exact hidx_mono c (inv.procSome c hold)
        · rw [hidx_sp c hsp2]
          rfl
      have hBno : x ∉ others := by
        intro hBo
        have hsm := (ho x hBo).2.2.2 lst hlstchild
        rw [hlst_unas] at hsm
        cases hsm
      refine ⟨⟨?_, hparBsome, Or.inr h2B, hkidsB⟩, hBno⟩
      show idxN x = none
      rw [hidx_out x hBnot]
      exact hBnone
  · rcases hnp with hnil | ⟨B, hB, h1, h2⟩
    · rw [hnil]
      exact List.nodup_nil
    · rw [hB]
      exact List.nodup_singleton B

theorem strahlerPass_cons (greedy : Bool) (ns : List TN) (br : List Nat)
    (en : Nat) (rest : List Nat) (st : SEng) :
    strahlerPass greedy ns br (en :: rest) st =
      ((strahlerPass greedy ns br rest (processFrontierNode greedy ns br st en).1).1,
       (processFrontierNode greedy ns br st en).2 ++
         (strahlerPass greedy ns br rest (processFrontierNode greedy ns br st en).1).2) := rfl

theorem pass_step (ns : List TN) (greedy : Bool)
    (hnd : (ns.map (·.treenode_id)).Nodup)
    (hfn : Nat → Nat)
    (hh : ∀ m ∈ ns, ∀ p, m.parent_id = some p → hfn p < hfn m.treenode_id) :
    ∀ (F : List Nat) (st : SEng) (collected : List Nat),
      EngInv ns greedy st →
      (F ++ collected).Nodup →
      (∀ x ∈ F ++ collected, FrontOK ns st x) →
      EngInv ns greedy (strahlerPass greedy ns (branchIds ns) F st).1 ∧
        (collected ++ (strahlerPass greedy ns (branchIds ns) F st).2).Nodup ∧
        (∀ x ∈ collected ++ (strahlerPass greedy ns (branchIds ns) F st).2,
            FrontOK ns (strahlerPass greedy ns (branchIds ns) F st).1 x) := by
  intro F
  induction F with
  | nil =>
    intro st collected hinv hnd2 hfo
    simp only [strahlerPass]
    refine ⟨hinv, by simpa using hnd2, ?_⟩
    intro x hx
    exact hfo x (by simpa using hx)
  | cons en rest ih =>
    intro st collected hinv hnd2 hfo
    have hen_nm : en ∉ rest ++ collected := (List.nodup_cons.mp (by simpa using hnd2)).1
    have hnd3 : (rest ++ collected).Nodup := (List.nodup_cons.mp (by simpa using hnd2)).2
    obtain ⟨hinv1, hothers1, hnews1, hnp_nd⟩ :=
      process_step ns greedy hnd hfn hh st en (rest ++ collected) hinv
        (hfo en (List.mem_cons_self _ _))
        (fun x hx => hfo x (List.mem_cons_of_mem _ hx)) hen_nm
    rw [strahlerPass_cons]
    set r := processFrontierNode greedy ns (branchIds ns) st en with hrdef
    have hfo2 : ∀ x ∈ rest ++ (collected ++ r.2), FrontOK ns r.1 x := by
      intro x hx
      rcases List.mem_append.mp hx with hr | hcnp
      · exact hothers1 x (List.mem_append_left _ hr)
      · rcases List.mem_append.mp hcnp with hcol | hnp2
        · exact hothers1 x (List.mem_append_right _ hcol)
        · exact (hnews1 x hnp2).1
    have hnd4 : (rest ++ (collected ++ r.2)).Nodup := by
      rw [← List.append_assoc]
      refine List.Nodup.append hnd3 hnp_nd ?_
      intro a ha hanp
      exact (hnews1 a hanp).2 ha
    obtain ⟨hinv2, hnd5, hfo3⟩ := ih r.1 (collected ++ r.2) hinv1 hnd4 hfo2
    refine ⟨hinv2, ?_, ?_⟩
    · rw [← List.append_assoc]
      exact hnd5
    · intro x hx
      rw [← List.append_assoc] at hx
      exact hfo3 x hx

theorem loop_inv (ns : List TN) (greedy : Bool)
    (hnd : (ns.map (·.treenode_id)).Nodup)
    (hfn : Nat → Nat)
    (hh : ∀ m ∈ ns, ∀ p, m.parent_id = some p → hfn p < hfn m.treenode_id) :
    ∀ (fuel : Nat) (F : List Nat) (st : SEng),
      EngInv ns greedy st → F.Nodup → (∀ x ∈ F, FrontOK ns st x) →
      EngInv ns greedy (strahlerLoop greedy ns (branchIds ns) fuel F st) := by
  intro fuel
  induction fuel with
  | zero =>
    intro F st hinv _ _
    exact hinv
  | succ f ih =>
    intro F st hinv hndF hfo
    cases F with
    | nil => exact hinv
    | cons en rest =>
      obtain ⟨hinv1, hnd1, hfo1⟩ :=
        pass_step ns greedy hnd hfn hh (en :: rest) st [] hinv (by simpa using hndF)
          (fun x hx => hfo x (by simpa using hx))
      simp only [strahlerLoop]
      exact ih _ _ hinv1 (by simpa using hnd1)
        (fun x hx => hfo1 x (by simpa using hx))

theorem strahler_index_inv (ns : List TN) (greedy : Bool) (hw : WTable ns) :
    EngInv ns greedy (strahler_index ns greedy) := by
  obtain ⟨hfn, hh⟩ := hw.acyc
  have hnd := hw.nodup
  have hinit : EngInv ns greedy ⟨fun _ => none, []⟩ := by
    refine ⟨?_, ?_, ?_, ?_⟩
    · intro n hn
      cases hn
    · intro n _ hs
      cases hs
    · intro n v _ hs
      cases hs
    · intro n v _ hs
      cases hs
  have hendnd : (endIds ns).Nodup := by
    unfold endIds
    exact hnd.sublist (List.Sublist.map _ (List.filter_sublist ns))
  have hfo : ∀ x ∈ endIds ns, FrontOK ns ⟨fun _ => none, []⟩ x := by
    intro x hx
    obtain ⟨m, hm, htid, hpne, hcnil⟩ := endIds_spec hx
    have hpx : parentOf ns x = m.parent_id := by
      rw [← htid]
      exact parentOf_eq_of_mem hnd hm
    refine ⟨rfl, ?_, Or.inl hcnil, ?_⟩
    · rw [hpx]
      exact Option.ne_none_iff_isSome.mp hpne
    · intro c hc
      rw [hcnil] at hc
      cases hc
  exact loop_inv ns greedy hnd hfn hh (ns.length + 1) (endIds ns) _ hinit hendnd hfo

/-- C2 counterexample: on the three-node tree `ex3` (root 0 with two leaf
children), the root is processed by the engine and gets index 1 from the
last spine that ran into it, while the claimed rule applied to its two
children's indices (both 1, sharing the maximum) yields 2.  The root is
classified `root`, not `branch`, so the spine walk does not stop below it
and the branch rule is never applied there. -/
theorem strahler_recurrence_counterexample :
    0 ∈ (strahler_index ex3 false).processed ∧
      engineIdx ex3 false 0 = some 1 ∧
      branchIndexOf ((childsOf ex3 0).filterMap (engineIdx ex3 false)) false = 2 := by
  decide

/-- C2 (amended): for every well-formed node table and every node processed
by the Strahler engine that is not a parentless node with two or more
children, the node's final index is computed from its (all assigned)
children's indices by the rule of morpho.py lines 348-359: no children
gives 1, one child continues its value, a tie at the maximum or the greedy
method gives max+1, otherwise max.  A parentless node with several
children instead ends up with the index of the last spine processed into
it. -/
theorem strahler_engine_recurrence (ns : List TN) (greedy : Bool) (hw : WTable ns)
    (n : Nat) (hn : n ∈ (strahler_index ns greedy).processed)
    (hroot2 : ¬(parentOf ns n = none ∧ 2 ≤ (childsOf ns n).length)) :
    ∃ v, engineIdx ns greedy n = some v ∧
      (∀ c ∈ childsOf ns n, (engineIdx ns greedy c).isSome) ∧
      v = branchIndexOf ((childsOf ns n).filterMap (engineIdx ns greedy)) greedy := by
  have inv := strahler_index_inv ns greedy hw
  obtain ⟨v, hv⟩ := Option.isSome_iff_exists.mp (inv.procSome n hn)
  refine ⟨v, hv, ?_⟩
  cases hpn : parentOf ns n with
  | some p =>
    have hps : (parentOf ns n).isSome := by rw [hpn]; rfl
    exact ⟨inv.downClosed n hps (by rw [hv]; rfl), inv.recur n v hps hv⟩
  | none =>
    have hle : (childsOf ns n).length ≤ 1 := by
      by_contra hgt
      push_neg at hgt
      exact hroot2 ⟨hpn, hgt⟩
    obtain ⟨c, hc, hcv⟩ := inv.rootWit n v hpn hv
    have hsingle : childsOf ns n = [c] := length_one_mem_eq hc hle
    constructor
    · intro c2 hc2
      rw [hsingle] at hc2
      rcases List.mem_singleton.mp hc2 with rfl
      unfold engineIdx
      rw [hcv]
      rfl
    · unfold engineIdx
      rw [hsingle, List.filterMap_cons, hcv]
      rfl

/-- Witness for the amended C2 theorem: on the seven-node binary tree,
branch node 1 is processed and its index 2 equals the rule applied to its
children's indices (1 and 1 share the maximum, so 1+1 = 2). -/
theorem strahler_engine_recurrence_witness :
    ∃ v, engineIdx ex7 false 1 = some v ∧
      (∀ c ∈ childsOf ex7 1, (engineIdx ex7 false c).isSome) ∧
      v = branchIndexOf ((childsOf ex7 1).filterMap (engineIdx ex7 false)) false :=
  strahler_engine_recurrence ex7 false
    ⟨by decide, ⟨fun t => t, by decide⟩⟩ 1 (by decide) (by decide)

/-! Flow centrality (morpho.py lines 827-967), restricted to
`polypre=False`.  The downsampling step (`y.downsample(1000000)`) only
collapses interior slab nodes for speed and is modelled as the identity. -/

/-- Modelled from the spec: `graph_utils.distal_to` is not in this tree.
The walk of §4.4 from a query node towards the root, following parent
links and collecting the visited nodes; the start node itself is part of
its own chain (a node counts as distal to itself). -/
def ancChain (ns : List TN) : Nat → Nat → List Nat
  | 0, q => [q]
  | fuel+1, q =>
    q :: (match parentOf ns q with
          | none => []
          | some p => ancChain ns fuel p)

/-- Modelled from the spec: the §4.4 Distal-Count Aggregator.  For each
query node q in Q, the walk q→root records which cut nodes are hit and
increments their counters; the count for cut node `c` is the number of
q whose ancestor chain contains `c`. -/
def distal_to (ns : List TN) (Q : List Nat) (c : Nat) : Nat :=
  (Q.filter (fun q => decide (c ∈ ancChain ns ns.length q))).length

/-- Treenode ids carrying presynapses,
`connectors[connectors.relation==0].treenode_id.unique()` (pandas keeps
the first occurrence of each id; `dedup` keeps the last, which has the
same elements and the same count). -/
def preIds (cs : List Connector) : List Nat :=
  ((cs.filter (fun c => c.relation = 0)).map (·.treenode_id)).dedup

/-- Treenode ids carrying postsynapses (`relation == 1`). -/
def postIds (cs : List Connector) : List Nat :=
  ((cs.filter (fun c => c.relation = 1)).map (·.treenode_id)).dedup

/-- `total_post = len(post_node_ids)` (morpho.py line 914). -/
def total_post (cs : List Connector) : Nat := (postIds cs).length

/-- Calculation nodes (morpho.py line 918): branch points plus any node
holding a connector. -/
def calc_node_ids (ns : List TN) (cs : List Connector) : List Nat :=
  (ns.filter (fun n => classify_nodes ns n = .branch ∨
    n.treenode_id ∈ cs.map (·.treenode_id))).map (·.treenode_id)

/-- Number of presynaptic nodes distal to `n` (morpho.py lines 921, 932). -/
def distal_pre (ns : List TN) (cs : List Connector) (n : Nat) : Nat :=
  distal_to ns (preIds cs) n

/-- Number of postsynaptic nodes distal to `n` (morpho.py lines 922, 933). -/
def distal_post (ns : List TN) (cs : List Connector) (n : Nat) : Nat :=
  distal_to ns (postIds cs) n

/-- The centrifugal dict of morpho.py line 937, in insertion order:
`{n: (total_post - distal_post[n]) * distal_pre[n] for n in calc_node_ids}`. -/
def centrifugalList (ns : List TN) (cs : List Connector) : List (Nat × Int) :=
  (calc_node_ids ns cs).map (fun n =>
    (n, ((total_post cs : Int) - (distal_post ns cs n : Int)) * (distal_pre ns cs n : Int)))

/-- The centripetal dict of morpho.py line 941 — note it uses `total_post`,
not `total_pre`: `{n: distal_post[n] * (total_post - distal_pre[n]) ...}`. -/
def centripetalList (ns : List TN) (cs : List Connector) : List (Nat × Int) :=
  (calc_node_ids ns cs).map (fun n =>
    (n, (distal_post ns cs n : Int) * ((total_post cs : Int) - (distal_pre ns cs n : Int))))

/-- `flow_centrality` with `mode='sum'` (morpho.py lines 954-958): the
attached column pairs the centrifugal keys with the elementwise sum of the
centrifugal and centripetal value arrays
(`x.nodes.loc[centrifugal.keys()] = res`). -/
def flow_centrality (ns : List TN) (cs : List Connector) : List (Nat × Int) :=
  List.zip ((centrifugalList ns cs).map (·.1))
    (List.zipWith (· + ·) ((centrifugalList ns cs).map (·.2))
      ((centripetalList ns cs).map (·.2)))

/-- Value of the attached `flow_centrality` column at node `n`. -/
def flowLookup (att : List (Nat × Int)) (n : Nat) : Option Int :=
  (att.find? (fun p => p.1 = n)).map (·.2)

theorem zipWith_add_map_same (f g : Nat → Int) :
    ∀ l : List Nat, List.zipWith (· + ·) (l.map f) (l.map g) = l.map (fun n => f n + g n) := by
  intro l
  induction l with
  | nil => rfl
  | cons a t ih => simp [ih]

theorem zip_self_map (h : Nat → Int) :
    ∀ l : List Nat, List.zip l (l.map h) = l.map (fun n => (n, h n)) := by
  intro l
  induction l with
  | nil => rfl
  | cons a t ih => simp [ih]

theorem find?_map_pair (g : Nat → Int) :
    ∀ (l : List Nat) (n : Nat), n ∈ l →
      (l.map (fun m => (m, g m))).find? (fun p => p.1 = n) = some (n, g n) := by
  intro l
  induction l with
  | nil =>
    intro n hn
    cases hn
  | cons a t ih =>
    intro n hn
    by_cases ha : a = n
    · subst ha
      simp [List.find?_cons]
    · rcases List.mem_cons.mp hn with rfl | ht
      · exact absurd rfl ha
      · rw [List.map_cons, List.find?_cons]
        split
        · next hfound =>
          exact absurd (of_decide_eq_true hfound) ha
        · exact ih n ht

theorem flow_centrality_eq_map (ns : List TN) (cs : List Connector) :
    flow_centrality ns cs = (calc_node_ids ns cs).map (fun n =>
      (n, ((total_post cs : Int) - (distal_post ns cs n : Int)) * (distal_pre ns cs n : Int) +
        (distal_post ns cs n : Int) * ((total_post cs : Int) - (distal_pre ns cs n : Int)))) := by
  unfold flow_centrality centrifugalList centripetalList
  rw [List.map_map, List.map_map, List.map_map]
  have h1 : ((fun p : Nat × Int => p.1) ∘ fun n =>
      (n, ((total_post cs : Int) - (distal_post ns cs n : Int)) * (distal_pre ns cs n : Int)))
      = id := by
    funext n
    rfl
  rw [h1, List.map_id]
  rw [zipWith_add_map_same, zip_self_map]
  rfl

/-- C1: for every node table, every connector table and every calculation
node n (branch points plus synapse-bearing nodes), `flow_centrality` in
mode 'sum' attaches to n the value
`(total_post - distal_post[n]) * distal_pre[n]
 + distal_post[n] * (total_post - distal_pre[n])` — the centrifugal term
plus the centripetal term, with `total_post` (not `total_pre`) appearing
in the centripetal factor. -/
theorem flow_centrality_sum_formula (ns : List TN) (cs : List Connector)
    (n : Nat) (hn : n ∈ calc_node_ids ns cs) :
    flowLookup (flow_centrality ns cs) n =
      some (((total_post cs : Int) - (distal_post ns cs n : Int)) * (distal_pre ns cs n : Int) +
        (distal_post ns cs n : Int) * ((total_post cs : Int) - (distal_pre ns cs n : Int))) := by
  unfold flowLookup
  rw [flow_centrality_eq_map, find?_map_pair _ _ n hn]
  rfl

/-- Connector table for the seven-node scenario of spec §8: presynapses on
the leaves 3 and 5, postsynapses on the leaves 4 and 6. -/
def exCs : List Connector := [⟨100, 3, 0⟩, ⟨101, 5, 0⟩, ⟨102, 4, 1⟩, ⟨103, 6, 1⟩]

/-- Witness for C1 at branch node 1 of the seven-node binary tree with the
§8 synapse placement. -/
theorem flow_centrality_sum_formula_witness :
    flowLookup (flow_centrality ex7 exCs) 1 =
      some (((total_post exCs : Int) - (distal_post ex7 exCs 1 : Int)) * (distal_pre ex7 exCs 1 : Int) +
        (distal_post ex7 exCs 1 : Int) * ((total_post exCs : Int) - (distal_pre ex7 exCs 1 : Int))) :=
  flow_centrality_sum_formula ex7 exCs 1 (by decide)

/-! Confidence propagation (`arbor_confidence`, morpho.py lines 50-113).
The neuron is taken as a rose tree here (the data-model invariant of §3
guarantees the parent links form such a tree); node ids and confidences
are the table columns.  Python float factors are modelled as rationals. -/

/-- Rose-tree view of a neuron for the root-to-leaves confidence walk. -/
inductive CTree where
  | node (tid : Nat) (confidence : Nat) (children : List CTree)

def CTree.tid : CTree → Nat
  | .node i _ _ => i

def CTree.conf : CTree → Nat
  | .node _ c _ => c

def CTree.children : CTree → List CTree
  | .node _ _ cs => cs

/-- The source default `confidences=(1, 0.9, 0.6, 0.4, 0.2)`
(morpho.py line 50), indexed at `5 - confidence` (line 74). -/
def default_confidences : List ℚ := [1, 9/10, 6/10, 4/10, 2/10]

/-- The factor table exactly as claim C1..C5 words it: six entries
`[1, 0.2, 0.4, 0.6, 0.9, 1.0]`, to be read at index `5 - confidence`. -/
def claim_confidences : List ℚ := [1, 2/10, 4/10, 6/10, 9/10, 1]

mutual
/-- `walk_to_leafs` of morpho.py lines 71-84: multiply the running
confidence by `confidences[5 - confidence]` of the current node, record
it, and continue into every child (the inner while loop is the single
child case of the same recursion). -/
def walk_to_leafs (confidences : List ℚ) (thisConf : ℚ) : CTree → List (Nat × ℚ)
  | .node i c cs =>
    (i, thisConf * confidences.getD (5 - c) 0) ::
      walkChildren confidences (thisConf * confidences.getD (5 - c) 0) cs
def walkChildren (confidences : List ℚ) (v : ℚ) : List CTree → List (Nat × ℚ)
  | [] => []
  | t :: ts => walk_to_leafs confidences v t ++ walkChildren confidences v ts
end

mutual
def cids : CTree → List Nat
  | .node i _ cs => i :: cidsList cs
def cidsList : List CTree → List Nat
  | [] => []
  | t :: ts => cids t ++ cidsList ts
end

mutual
def subtreesOf : CTree → List CTree
  | .node i c cs => .node i c cs :: subtreesList cs
def subtreesList : List CTree → List CTree
  | [] => []
  | t :: ts => subtreesOf t ++ subtreesList ts
end

/-- `arbor_confidence` of morpho.py lines 50-113: the root is assigned 1
directly (line 103) and each of its children starts a `walk_to_leafs` with
running confidence 1 (lines 106-108). -/
def arbor_confidence (confidences : List ℚ) (t : CTree) : List (Nat × ℚ) :=
  (t.tid, 1) :: walkChildren confidences 1 t.children

/-- Value of the `arbor_confidence` column at a node id. -/
def qLookup (l : List (Nat × ℚ)) (i : Nat) : Option ℚ :=
  (l.find? (fun p => p.1 = i)).map (·.2)

theorem qLookup_cons_self (p : Nat × ℚ) (l : List (Nat × ℚ)) :
    qLookup (p :: l) p.1 = some p.2 := by
  unfold qLookup
  simp [List.find?_cons]

theorem qLookup_cons_ne (p : Nat × ℚ) (l : List (Nat × ℚ)) (i : Nat) (h : p.1 ≠ i) :
    qLookup (p :: l) i = qLookup l i := by
  unfold qLookup
  rw [List.find?_cons]
  split
  · next hfound => exact absurd (of_decide_eq_true hfound) h
  · rfl

theorem qLookup_append_left (l1 l2 : List (Nat × ℚ)) (i : Nat)
    (h : i ∈ l1.map (·.1)) : qLookup (l1 ++ l2) i = qLookup l1 i := by
  induction l1 with
  | nil => cases h
  | cons p l1' ih =>
    by_cases hp : p.1 = i
    · subst hp
      rw [List.cons_append, qLookup_cons_self, qLookup_cons_self]
    · rw [List.cons_append, qLookup_cons_ne p _ i hp, qLookup_cons_ne p _ i hp]
      rcases List.mem_map.mp h with ⟨q, hq, hqi⟩
      rcases List.mem_cons.mp hq with rfl | hm
      · exact absurd hqi hp
      · exact ih (List.mem_map.mpr ⟨q, hm, hqi⟩)

theorem qLookup_append_right (l1 l2 : List (Nat × ℚ)) (i : Nat)
    (h : i ∉ l1.map (·.1)) : qLookup (l1 ++ l2) i = qLookup l2 i := by
  induction l1 with
  | nil => rfl
  | cons p l1' ih =>
    have hp : p.1 ≠ i := by
      intro he
      exact h (by simp [he])
    rw [List.cons_append, qLookup_cons_ne p _ i hp]
    exact ih (fun hm => h (by simp [hm]))

mutual
theorem walk_keys (confs : List ℚ) (v : ℚ) :
    ∀ t : CTree, (walk_to_leafs confs v t).map (·.1) = cids t
  | .node i c cs => by
    unfold walk_to_leafs cids
    rw [List.map_cons, walkChildren_keys confs (v * confs.getD (5 - c) 0) cs]
theorem walkChildren_keys (confs : List ℚ) (v : ℚ) :
    ∀ ts : List CTree, (walkChildren confs v ts).map (·.1) = cidsList ts
  | [] => rfl
  | t :: ts => by
    unfold walkChildren cidsList
    rw [List.map_append, walk_keys confs v t, walkChildren_keys confs v ts]
end

theorem CTree.tid_mem_cids : ∀ t : CTree, t.tid ∈ cids t
  | .node i c cs => by
    unfold cids
    exact List.mem_cons_self _ _

theorem cids_subset_of_mem :
    ∀ (ts : List CTree) (c0 : CTree), c0 ∈ ts → ∀ i ∈ cids c0, i ∈ cidsList ts := by
  intro ts
  induction ts with
  | nil =>
    intro c0 h
    cases h
  | cons a ts' ih =>
    intro c0 h i hi
    unfold cidsList
    rcases List.mem_cons.mp h with rfl | hm
    · exact List.mem_append_left _ hi
    · exact List.mem_append_right _ (ih c0 hm i hi)

theorem cidsList_nodup_of_mem :
    ∀ (ts : List CTree) (c0 : CTree), c0 ∈ ts → (cidsList ts).Nodup → (cids c0).Nodup := by
  intro ts
  induction ts with
  | nil =>
    intro c0 h
    cases h
  | cons a ts' ih =>
    intro c0 h hnd
    unfold cidsList at hnd
    rcases List.mem_cons.mp h with rfl | hm
    · exact (List.nodup_append.mp hnd).1
    · exact ih c0 hm (List.nodup_append.mp hnd).2.1

theorem walk_lookup_self (confs : List ℚ) (v : ℚ) :
    ∀ t : CTree, qLookup (walk_to_leafs confs v t) t.tid =
      some (v * confs.getD (5 - t.conf) 0)
  | .node i c cs => by
    unfold walk_to_leafs
    exact qLookup_cons_self (i, v * confs.getD (5 - c) 0) _

theorem walkChildren_lookup_self (confs : List ℚ) (v : ℚ) :
    ∀ ts : List CTree, (cidsList ts).Nodup → ∀ c0 ∈ ts,
      qLookup (walkChildren confs v ts) c0.tid =
        some (v * confs.getD (5 - c0.conf) 0) := by
  intro ts
  induction ts with
  | nil =>
    intro _ c0 h
    cases h
  | cons a ts' ih =>
    intro hnd c0 h
    unfold walkChildren
    unfold cidsList at hnd
    rcases List.mem_cons.mp h with rfl | hm
    · rw [qLookup_append_left]
      · exact walk_lookup_self confs v c0
      · rw [walk_keys]
        exact CTree.tid_mem_cids c0
    · rw [qLookup_append_right]
      · exact ih (List.nodup_append.mp hnd).2.1 c0 hm
      · rw [walk_keys]
        intro hmem
        exact (List.nodup_append.mp hnd).2.2 hmem
          (cids_subset_of_mem ts' c0 hm c0.tid (CTree.tid_mem_cids c0))

mutual
theorem subtree_tids : ∀ (t s : CTree), s ∈ subtreesOf t →
    s.tid ∈ cids t ∧ ∀ c ∈ s.children, c.tid ∈ cids t
  | .node i κ cs, s => by
    intro hs
    unfold subtreesOf at hs
    unfold cids
    rcases List.mem_cons.mp hs with rfl | hm
    · refine ⟨List.mem_cons_self _ _, ?_⟩
      intro c hc
      exact List.mem_cons_of_mem _
        (cids_subset_of_mem cs c hc c.tid (CTree.tid_mem_cids c))
    · obtain ⟨h1, h2⟩ := subtree_tids_list cs s hm
      exact ⟨List.mem_cons_of_mem _ h1, fun c hc => List.mem_cons_of_mem _ (h2 c hc)⟩
theorem subtree_tids_list : ∀ (ts : List CTree) (s : CTree), s ∈ subtreesList ts →
    s.tid ∈ cidsList ts ∧ ∀ c ∈ s.children, c.tid ∈ cidsList ts
  | [], s => by
    intro hs
    cases hs
  | a :: ts', s => by
    intro hs
    unfold subtreesList at hs
    unfold cidsList
    rcases List.mem_append.mp hs with hl | hr
    · obtain ⟨h1, h2⟩ := subtree_tids a s hl
      exact ⟨List.mem_append_left _ h1, fun c hc => List.mem_append_left _ (h2 c hc)⟩
    · obtain ⟨h1, h2⟩ := subtree_tids_list ts' s hr
      exact ⟨List.mem_append_right _ h1, fun c hc => List.mem_append_right _ (h2 c hc)⟩
end

mutual
theorem walk_edge (confs : List ℚ) : ∀ (t : CTree) (v : ℚ), (cids t).Nodup →
    ∀ s ∈ subtreesOf t, ∀ c ∈ s.children,
      ∃ vp, qLookup (walk_to_leafs confs v t) s.tid = some vp ∧
        qLookup (walk_to_leafs confs v t) c.tid =
          some (vp * confs.getD (5 - c.conf) 0)
  | .node i κ cs, v => by
    intro hnd s hs c hc
    unfold subtreesOf at hs
    unfold walk_to_leafs
    unfold cids at hnd
    have hhead : i ∉ cidsList cs := (List.nodup_cons.mp hnd).1
    have hndtl : (cidsList cs).Nodup := (List.nodup_cons.mp hnd).2
    rcases List.mem_cons.mp hs with rfl | hm
    · refine ⟨v * confs.getD (5 - κ) 0,
        qLookup_cons_self (i, v * confs.getD (5 - κ) 0) _, ?_⟩
      have hcne : (i, v * confs.getD (5 - κ) 0).1 ≠ c.tid := by
        intro he
        have he2 : i = c.tid := he
        rw [he2] at hhead
        exact hhead (cids_subset_of_mem _ c hc c.tid (CTree.tid_mem_cids c))
      rw [qLookup_cons_ne _ _ _ hcne]
      exact walkChildren_lookup_self confs _ cs hndtl c hc
    · obtain ⟨h1, h2⟩ := subtree_tids_list cs s hm
      obtain ⟨vp, hvs, hvc⟩ := walk_edge_list confs cs (v * confs.getD (5 - κ) 0) hndtl s hm c hc
      have hsne : (i, v * confs.getD (5 - κ) 0).1 ≠ s.tid := by
        intro he
        have he2 : i = s.tid := he
        rw [he2] at hhead
        exact hhead h1
      have hcne : (i, v * confs.getD (5 - κ) 0).1 ≠ c.tid := by
        intro he
        have he2 : i = c.tid := he
        rw [he2] at hhead
        exact hhead (h2 c hc)
      exact ⟨vp, by rw [qLookup_cons_ne _ _ _ hsne]; exact hvs,
        by rw [qLookup_cons_ne _ _ _ hcne]; exact hvc⟩
theorem walk_edge_list (confs : List ℚ) : ∀ (ts : List CTree) (v : ℚ), (cidsList ts).Nodup →
    ∀ s ∈ subtreesList ts, ∀ c ∈ s.children,
      ∃ vp, qLookup (walkChildren confs v ts) s.tid = some vp ∧
        qLookup (walkChildren confs v ts) c.tid =
          some (vp * confs.getD (5 - c.conf) 0)
  | [], v => by
    intro _ s hs
    cases hs
  | a :: ts', v => by
    intro hnd s hs c hc
    unfold subtreesList at hs
    unfold walkChildren
    unfold cidsList at hnd
    have hnda : (cids a).Nodup := (List.nodup_append.mp hnd).1
    have hndts : (cidsList ts').Nodup := (List.nodup_append.mp hnd).2.1
    have hdisj := (List.nodup_append.mp hnd).2.2
    rcases List.mem_append.mp hs with hl | hr
    · obtain ⟨h1, h2⟩ := subtree_tids a s hl
      obtain ⟨vp, hvs, hvc⟩ := walk_edge confs a v hnda s hl c hc
      refine ⟨vp, ?_, ?_⟩
      · rw [qLookup_append_left]
        · exact hvs
        · rw [walk_keys]
          exact h1
      · rw [qLookup_append_left]
        · exact hvc
        · rw [walk_keys]
          exact h2 c hc
    · obtain ⟨h1, h2⟩ := subtree_tids_list ts' s hr
      obtain ⟨vp, hvs, hvc⟩ := walk_edge_list confs ts' v hndts s hr c hc
      refine ⟨vp, ?_, ?_⟩
      · rw [qLookup_append_right]
        · exact hvs
        · rw [walk_keys]
          intro hmem
          exact hdisj hmem h1
      · rw [qLookup_append_right]
        · exact hvc
        · rw [walk_keys]
          intro hmem
          exact hdisj hmem (h2 c hc)
end

/-- Two-node tree for the C5 counterexample: root 0 with a child of id 1
and confidence 4. -/
def exC5 : CTree := .node 0 5 [.node 1 4 []]

/-- C5 counterexample: with the source default factor table
`(1, 0.9, 0.6, 0.4, 0.2)` the child of confidence 4 receives
`1 * confidences[5-4] = 0.9`; the claim's six-entry table
`[1, 0.2, 0.4, 0.6, 0.9, 1.0]` read at index `5 - 4` predicts `0.2`
instead, so the claim's factor lookup is wrong for confidences 1..4. -/
theorem arbor_confidence_counterexample :
    qLookup (arbor_confidence default_confidences exC5) 1 = some (9/10) ∧
      (1 : ℚ) * claim_confidences.getD (5 - 4) 0 = 2/10 ∧
      ¬((9 : ℚ)/10 = 2/10) := by
  refine ⟨?_, ?_, ?_⟩
  · norm_num [qLookup, arbor_confidence, exC5, walkChildren, walk_to_leafs,
      default_confidences, CTree.tid, CTree.children, List.find?]
  · norm_num [claim_confidences]
  · norm_num

/-- C5 (amended): confidence propagation assigns arbor_confidence 1 to the
root, and to every non-root node the value
`arbor_confidence[parent] * factor(node.confidence)`, where `factor` is
looked up in the source's default table `(1, 0.9, 0.6, 0.4, 0.2)` at index
`5 - confidence` — so confidence 5 yields factor 1.0 and confidence 1
yields 0.2. -/
theorem arbor_confidence_node (confs : List ℚ) (i κ : Nat) (cs : List CTree) :
    arbor_confidence confs (.node i κ cs) = (i, 1) :: walkChildren confs 1 cs := rfl

theorem CTree.tid_node (i κ : Nat) (cs : List CTree) : CTree.tid (.node i κ cs) = i := rfl

theorem CTree.children_node (i κ : Nat) (cs : List CTree) :
    CTree.children (.node i κ cs) = cs := rfl

/-- C5 (amended): confidence propagation assigns arbor_confidence 1 to the
root, and to every non-root node the value
`arbor_confidence[parent] * factor(node.confidence)`, where `factor` is
looked up in the source's default table `(1, 0.9, 0.6, 0.4, 0.2)` at index
`5 - confidence` — so confidence 5 yields factor 1.0 and confidence 1
yields 0.2. -/
theorem arbor_confidence_propagation (t : CTree) (hnd : (cids t).Nodup)
    (s : CTree) (hs : s ∈ subtreesOf t) (c : CTree) (hc : c ∈ s.children) :
    qLookup (arbor_confidence default_confidences t) t.tid = some 1 ∧
      default_confidences.getD (5 - 5) 0 = 1 ∧
      ∃ vp, qLookup (arbor_confidence default_confidences t) s.tid = some vp ∧
        qLookup (arbor_confidence default_confidences t) c.tid =
          some (vp * default_confidences.getD (5 - c.conf) 0) := by
  obtain ⟨i, κ, cs, rfl⟩ : ∃ i κ cs, t = CTree.node i κ cs := by
    cases t with
    | node i κ cs => exact ⟨i, κ, cs, rfl⟩
  rw [arbor_confidence_node, CTree.tid_node]
  unfold cids at hnd
  have hhead : i ∉ cidsList cs := (List.nodup_cons.mp hnd).1
  have hndtl : (cidsList cs).Nodup := (List.nodup_cons.mp hnd).2
  refine ⟨qLookup_cons_self (i, 1) _, by norm_num [default_confidences], ?_⟩
  unfold subtreesOf at hs
  rcases List.mem_cons.mp hs with rfl | hm
  · rw [CTree.children_node] at hc
    refine ⟨1, ?_, ?_⟩
    · rw [CTree.tid_node]
      exact qLookup_cons_self (i, 1) _
    · have hcne : ((i : Nat), (1 : ℚ)).1 ≠ c.tid := by
        intro he
        have he2 : i = c.tid := he
        rw [he2] at hhead
        exact hhead (cids_subset_of_mem _ c hc c.tid (CTree.tid_mem_cids c))
      rw [qLookup_cons_ne _ _ _ hcne]
      exact walkChildren_lookup_self default_confidences 1 cs hndtl c hc
  · obtain ⟨h1, h2⟩ := subtree_tids_list cs s hm
    obtain ⟨vp, hvs, hvc⟩ := walk_edge_list default_confidences cs 1 hndtl s hm c hc
    have hsne : ((i : Nat), (1 : ℚ)).1 ≠ s.tid := by
      intro he
      have he2 : i = s.tid := he
      rw [he2] at hhead
      exact hhead h1
    have hcne : ((i : Nat), (1 : ℚ)).1 ≠ c.tid := by
      intro he
      have he2 : i = c.tid := he
      rw [he2] at hhead
      exact hhead (h2 c hc)
    exact ⟨vp, by rw [qLookup_cons_ne _ _ _ hsne]; exact hvs,
      by rw [qLookup_cons_ne _ _ _ hcne]; exact hvc⟩

/-- Witness for the amended C5 theorem on the two-node tree: the root gets
1 and the confidence-4 child gets `1 * 0.9`. -/
theorem arbor_confidence_propagation_witness :
    qLookup (arbor_confidence default_confidences exC5) (CTree.tid exC5) = some 1 ∧
      default_confidences.getD (5 - 5) 0 = 1 ∧
      ∃ vp, qLookup (arbor_confidence default_confidences exC5) (CTree.tid exC5) = some vp ∧
        qLookup (arbor_confidence default_confidences exC5) (CTree.tid (.node 1 4 [])) =
          some (vp * default_confidences.getD (5 - CTree.conf (.node 1 4 [])) 0) :=
  arbor_confidence_propagation exC5 (by decide) exC5 (by constructor)
    (.node 1 4 []) (by constructor)

/-! Segregation index (morpho.py lines 633-710), for an already-split
neuron list.  Each fragment is represented by its connector table;
`n_connectors` is its length and `n_postsynapses` counts relation-1 rows.
`math.log` is modelled with `Real.log`. -/

/-- Number of postsynapses of a fragment (`n.n_postsynapses`). -/
def n_postsynapses (f : List Connector) : Nat :=
  (f.filter (fun c => c.relation = 1)).length

/-- `sum(x.n_connectors)` over the fragments. -/
def totalConn (xs : List (List Connector)) : Nat := (xs.map (·.length)).sum

/-- `sum(x.n_postsynapses)` over the fragments. -/
def totalPost (xs : List (List Connector)) : Nat := (xs.map n_postsynapses).sum

/-- `p = n.n_postsynapses / n.n_connectors` (morpho.py line 689). -/
noncomputable def fragP (f : List Connector) : ℝ :=
  (n_postsynapses f : ℝ) / (f.length : ℝ)

/-- Per-fragment entropy of morpho.py lines 691-694: the two-term entropy
inside `0 < p < 1` and 0 otherwise. -/
noncomputable def fragEntropy (f : List Connector) : ℝ :=
  if 0 < fragP f ∧ fragP f < 1 then
    -(fragP f * Real.log (fragP f) + (1 - fragP f) * Real.log (1 - fragP f))
  else 0

/-- `S = 1 / sum(x.n_connectors) * sum([e * x[i].n_connectors ...])`
(morpho.py line 699). -/
noncomputable def segS (xs : List (List Connector)) : ℝ :=
  1 / (totalConn xs : ℝ) *
    (List.zipWith (fun e (c : Nat) => e * (c : ℝ)) (xs.map fragEntropy)
      (xs.map (·.length))).sum

/-- `p_norm = sum(x.n_postsynapses) / sum(x.n_connectors)`
(morpho.py line 702). -/
noncomputable def pNorm (xs : List (List Connector)) : ℝ :=
  (totalPost xs : ℝ) / (totalConn xs : ℝ)

/-- `segregation_index` of morpho.py lines 686-710: `H = 1 - S/S_norm`
inside `0 < p_norm < 1`, else 0. -/
noncomputable def segregation_index (xs : List (List Connector)) : ℝ :=
  if 0 < pNorm xs ∧ pNorm xs < 1 then
    1 - segS xs /
      (-(pNorm xs * Real.log (pNorm xs) + (1 - pNorm xs) * Real.log (1 - pNorm xs)))
  else 0

/-- The per-fragment entropy exactly as the claim words it:
`S = -(p ln p + (1-p) ln(1-p))`, defined as 0 when p is 0 or 1. -/
noncomputable def claimFragS (p : ℝ) : ℝ :=
  if p = 0 ∨ p = 1 then 0 else -(p * Real.log p + (1 - p) * Real.log (1 - p))

/-- The connector-weighted average exactly as the claim words it:
`S_avg = (sum of S_i * c_i) / (sum of c_i)`. -/
noncomputable def claimSavg (xs : List (List Connector)) : ℝ :=
  (xs.map (fun f => claimFragS (fragP f) * (f.length : ℝ))).sum / (totalConn xs : ℝ)

/-- The segregation index exactly as the claim words it:
`H = 1 - S_avg/S_norm`, defined as 0 when `p_norm` is 0 or 1, with
`S_norm` the claimed entropy of the pooled fraction. -/
noncomputable def claimH (xs : List (List Connector)) : ℝ :=
  if pNorm xs = 0 ∨ pNorm xs = 1 then 0
  else 1 - claimSavg xs / claimFragS (pNorm xs)

theorem entropy_branch_eq (p : ℝ) (h0 : 0 ≤ p) (h1 : p ≤ 1) :
    (if 0 < p ∧ p < 1 then -(p * Real.log p + (1 - p) * Real.log (1 - p)) else 0) =
      claimFragS p := by
  unfold claimFragS
  by_cases he : p = 0 ∨ p = 1
  · rw [if_pos he, if_neg]
    rintro ⟨hl, hr⟩
    rcases he with rfl | rfl
    · exact lt_irrefl 0 hl
    · exact lt_irrefl 1 hr
  · push_neg at he
    rw [if_pos ⟨lt_of_le_of_ne h0 (Ne.symm he.1), lt_of_le_of_ne h1 he.2⟩, if_neg]
    push_neg
    exact he

theorem zipWith_mul_map_same (f : List Connector → ℝ) :
    ∀ xs : List (List Connector),
      List.zipWith (fun e (c : Nat) => e * (c : ℝ)) (xs.map f) (xs.map (·.length)) =
        xs.map (fun x => f x * (x.length : ℝ)) := by
  intro xs
  induction xs with
  | nil => rfl
  | cons a t ih => simp [ih]

theorem n_postsynapses_le_length (f : List Connector) : n_postsynapses f ≤ f.length :=
  List.length_filter_le _ f

theorem fragP_nonneg (f : List Connector) : 0 ≤ fragP f :=
  div_nonneg (by positivity) (by positivity)

theorem fragP_le_one (f : List Connector) (hf : f ≠ []) : fragP f ≤ 1 := by
  unfold fragP
  have hflen : (0:ℝ) < (f.length : ℝ) := by
    have := List.length_pos.mpr hf
    exact_mod_cast this
  rw [div_le_one hflen]
  exact_mod_cast n_postsynapses_le_length f

theorem totalConn_pos (xs : List (List Connector)) (hne : xs ≠ [])
    (hfr : ∀ f ∈ xs, f ≠ []) : 0 < totalConn xs := by
  cases xs with
  | nil => exact absurd rfl hne
  | cons a t =>
    have h1 : 1 ≤ a.length := List.length_pos.mpr (hfr a (List.mem_cons_self _ _))
    unfold totalConn
    simp only [List.map_cons, List.sum_cons]
    omega

theorem pNorm_nonneg (xs : List (List Connector)) : 0 ≤ pNorm xs :=
  div_nonneg (by positivity) (by positivity)

theorem pNorm_le_one (xs : List (List Connector)) (hne : xs ≠ [])
    (hfr : ∀ f ∈ xs, f ≠ []) : pNorm xs ≤ 1 := by
  unfold pNorm
  have hpos : (0:ℝ) < (totalConn xs : ℝ) := by
    exact_mod_cast totalConn_pos xs hne hfr
  rw [div_le_one hpos]
  have hle : totalPost xs ≤ totalConn xs := by
    unfold totalPost totalConn
    apply List.sum_le_sum
    intro f _
    exact n_postsynapses_le_length f
  exact_mod_cast hle

/-- C8: for every split into nonempty fragments, `segregation_index`
computes exactly the claimed quantity: per-fragment entropy
`S = -(p ln p + (1-p) ln(1-p))` with p the fraction of the fragment's
connectors that are postsynaptic (0 when p is 0 or 1), the
connector-weighted average `S_avg = (sum of S_i * c_i)/(sum of c_i)`, and
`H = 1 - S_avg/S_norm`, with H defined as 0 when the pooled fraction
`p_norm` is 0 or 1. -/
theorem segregation_index_matches_claim (xs : List (List Connector))
    (hne : xs ≠ []) (hfr : ∀ f ∈ xs, f ≠ []) :
    segregation_index xs = claimH xs := by
  have hp0 := pNorm_nonneg xs
  have hp1 := pNorm_le_one xs hne hfr
  unfold segregation_index claimH
  by_cases hbr : pNorm xs = 0 ∨ pNorm xs = 1
  · rw [if_neg, if_pos hbr]
    rintro ⟨hl, hr⟩
    rcases hbr with he | he
    · rw [he] at hl
      exact lt_irrefl 0 hl
    · rw [he] at hr
      exact lt_irrefl 1 hr
  · push_neg at hbr
    rw [if_pos ⟨lt_of_le_of_ne hp0 (Ne.symm hbr.1), lt_of_le_of_ne hp1 hbr.2⟩,
      if_neg (by push_neg; exact hbr)]
    have hS : segS xs = claimSavg xs := by
      unfold segS claimSavg
      rw [zipWith_mul_map_same]
      rw [one_div, inv_mul_eq_div]
      congr 1
      apply congrArg List.sum
      apply List.map_congr_left
      intro f hf
      unfold fragEntropy
      rw [entropy_branch_eq (fragP f) (fragP_nonneg f) (fragP_le_one f (hfr f hf))]
    rw [hS]
    unfold claimFragS
    rw [if_neg (by push_neg; exact hbr)]

/-- Witness for C8: two singleton fragments, each with one postsynaptic
connector, give `p_norm = 1` and segregation index 0 on both sides. -/
theorem segregation_index_matches_claim_witness :
    segregation_index [[⟨0, 0, 1⟩], [⟨1, 1, 1⟩]] = claimH [[⟨0, 0, 1⟩], [⟨1, 1, 1⟩]] :=
  segregation_index_matches_claim [[⟨0, 0, 1⟩], [⟨1, 1, 1⟩]] (by decide)
    (by decide)

/-! Stitching (morpho.py lines 970-1080). -/

/-- Squared Euclidean distance between two node rows.  `cdist` uses the
Euclidean distance; squaring is strictly monotone on nonnegative reals,
so every comparison and argmin below agrees with the source, ties
included. -/
def sqDist (a b : TN) : Int :=
  (a.x - b.x) * (a.x - b.x) + (a.y - b.y) * (a.y - b.y) + (a.z - b.z) * (a.z - b.z)

/-- numpy `argmin` on a vector: index of the first minimum (0 on []). -/
def argminIdx (l : List Int) : Nat :=
  (List.range l.length).foldl
    (fun best i => if l.getD i 0 < l.getD best 0 then i else best) 0

/-- The stitch pair of morpho.py lines 1060-1062 for candidate tables A
and B: `dist.argmin(axis=0)[0]` is the index into A minimising column 0
of the distance matrix, i.e. the A row closest to B's FIRST candidate,
and `dist.argmin(axis=1)[0]` is the index into B minimising row 0, i.e.
the B row closest to A's FIRST candidate. -/
def pickStitchPair (A B : List TN) : Nat × Nat :=
  match A, B with
  | a0 :: _, b0 :: _ =>
    (argminIdx (A.map (fun a => sqDist a b0)), argminIdx (B.map (fun b => sqDist a0 b)))
  | _, _ => (0, 0)

/-- Accumulated tree for the stitch example: nodes at (0,0,0) and
(10,0,0). -/
def stitchA : List TN := [⟨1, none, 0, 0, 0, 5⟩, ⟨2, some 1, 10, 0, 0, 5⟩]

/-- Incoming tree for the stitch example: nodes at (5,0,0) and (10,1,0). -/
def stitchB : List TN := [⟨3, none, 5, 0, 0, 5⟩, ⟨4, some 3, 10, 1, 0, 5⟩]

/-- C3: the stitcher does NOT join the globally closest pair.  On the
concrete tables `stitchA`/`stitchB` the code of morpho.py lines 1060-1062
picks index pair (0, 0) — squared distance 25 — although the pair (1, 1)
lies at squared distance 1, because `dist.argmin(axis=0)[0]` and
`dist.argmin(axis=1)[0]` only look at B's first and A's first candidate.
This contradicts the docstring (lines 975-977: "stitched at the closest
point") and the spec's "globally closest pair". -/
theorem stitch_pair_not_global_min :
    pickStitchPair stitchA stitchB = (0, 0) ∧
    sqDist (stitchA.getD 0 ⟨0, none, 0, 0, 0, 0⟩) (stitchB.getD 0 ⟨0, none, 0, 0, 0, 0⟩) = 25 ∧
    sqDist (stitchA.getD 1 ⟨0, none, 0, 0, 0, 0⟩) (stitchB.getD 1 ⟨0, none, 0, 0, 0, 0⟩) = 1 := by
  decide

/-- A neuron, reduced to its node and connector tables. -/
structure Neuron where
  nodes : List TN
  connectors : List Connector
  deriving DecidableEq

/-- The `method` argument of `stitch_neurons`. -/
inductive SMethod
  | LEAFS
  | ALL
  | NONE
  deriving DecidableEq

/-- The Python exception the embedding distinguishes: `neurons[0]` on an
empty list raises `IndexError`. -/
inductive PyErr
  | indexError
  deriving DecidableEq

/-- Candidate nodes for stitching (morpho.py lines 1048-1053): under
'LEAFS' only nodes typed 'end' or 'root', otherwise the whole table. -/
def stitchCandidates (method : SMethod) (ns : List TN) : List TN :=
  match method with
  | .LEAFS => ns.filter
      (fun n => classify_nodes ns n = NType.endp ∨ classify_nodes ns n = NType.root)
  | _ => ns

/-- Modelled from the spec: `CatmaidNeuron.reroot` (core.py) is not in
this tree.  §4.7: rerooting reverses the parent links along the path from
the new root up to the old root and clears the new root's parent; every
other link is unchanged. -/
def rerootTable (ns : List TN) (newRoot : Nat) : List TN :=
  let path := ancChain ns ns.length newRoot
  ns.map (fun n =>
    if n.treenode_id = newRoot then { n with parent_id := none }
    else
      match (path.zip path.tail).find? (fun pr => pr.2 = n.treenode_id) with
      | some pr => { n with parent_id := some pr.1 }
      | none => n)

/-- One merge step of the stitch loop (morpho.py lines 1043-1075) with no
preferred treenode ids: pick the stitch pair from the candidate tables,
reroot the incoming neuron at tnB, point its cleared root at tnA, and
concatenate the tables.  (On an empty candidate table the source would
fail inside `argmin`; the embedding falls back to plain concatenation.) -/
def mergeOne (method : SMethod) (acc nB : Neuron) : Neuron :=
  let tA := stitchCandidates method acc.nodes
  let tB := stitchCandidates method nB.nodes
  match tA, tB with
  | a0 :: restA, b0 :: restB =>
    let pr := pickStitchPair (a0 :: restA) (b0 :: restB)
    let tnA := ((a0 :: restA).getD pr.1 a0).treenode_id
    let tnB := ((b0 :: restB).getD pr.2 b0).treenode_id
    let rerooted := rerootTable nB.nodes tnB
    let fixed := rerooted.map
      (fun n => if n.parent_id = none then { n with parent_id := some tnA } else n)
    ⟨acc.nodes ++ fixed, acc.connectors ++ nB.connectors⟩
  | _, _ => ⟨acc.nodes ++ nB.nodes, acc.connectors ++ nB.connectors⟩

/-- `stitch_neurons` (morpho.py lines 1002-1080) on an already-flattened
list of neurons.  With fewer than 2 neurons the source only logs a
warning and returns `neurons[0]` (lines 1018-1020): on one neuron that
neuron, on zero neurons Python's `IndexError`.  Method NONE concatenates
the tables (lines 1027-1037); otherwise the remaining neurons are folded
into the first one by one. -/
def stitchNeurons (method : SMethod) (neurons : List Neuron) : Except PyErr Neuron :=
  match neurons with
  | [] => .error .indexError
  | n0 :: rest =>
    if neurons.length < 2 then .ok n0
    else if method = SMethod.NONE then
      .ok ⟨(neurons.map (·.nodes)).flatten, (neurons.map (·.connectors)).flatten⟩
    else
      .ok (rest.foldl (mergeOne method) n0)

/-- A concrete single neuron for the C9 counterexample. -/
def singleNeuron : Neuron := ⟨stitchA, []⟩

/-- C9 counterexample: called on a single neuron the stitcher raises
nothing — it returns that neuron (morpho.py line 1020, after the logged
warning of line 1019) — and on zero neurons the failure is Python's
`IndexError` from `neurons[0]`, not `AmbiguousInputError`. -/
theorem stitch_single_no_error :
    stitchNeurons SMethod.ALL [singleNeuron] = Except.ok singleNeuron ∧
    stitchNeurons SMethod.ALL [] = Except.error PyErr.indexError :=
  ⟨rfl, rfl⟩

/-- C9 (amended): for every method and every neuron, stitching a single
neuron returns that neuron unchanged, and stitching an empty list fails
with `IndexError`; no `AmbiguousInputError` is raised on fewer than 2
trees. -/
theorem stitch_lt2_behaviour (method : SMethod) (n : Neuron) :
    stitchNeurons method [n] = Except.ok n ∧
    stitchNeurons method [] = Except.error PyErr.indexError :=
  ⟨rfl, rfl⟩
